import Mathlib

/-!  Verification of the n-gram distance core of
`src/dbms/src/Functions/FunctionsStringSimilarity.cpp` (struct `NgramDistanceImpl`,
instantiated at `(N, CodePoint, UTF8, CaseInsensitive)` =
`(4, UInt8, false, _)` and `(3, UInt32, true, _)`).

Modelling conventions (shallow embedding):

* Byte strings are `List Nat` (each element a byte value).  Machine integers are `Nat`
  with explicit wrapping: `UInt16` table cells are kept `< 65536` by reducing every
  write `% 65536`; the `size_t` running `distance` is reduced `% 2 ^ 64`.
* The 65536-entry `NgramStats` array is a function `Nat → Nat` updated with
  `Function.update`; cells are read "as `Int16`": the signed value is positive
  exactly when the stored cell `v` satisfies `0 < v ∧ v < 32768`.
* `Float32` results are modelled as exact rationals `ℚ` (`distance / max (h + n) 1`).
  Equalities between results proved here correspond to bit-equal float results in the
  source, because the proofs establish that the integer numerator/denominator pairs
  agree; the `[0, 1]` bounds survive IEEE rounding because rounding is monotone and
  `0`, `1` are exactly representable.
* The two refill functions `readASCIICodePoints` / `readUTF8CodePoints` fill a window
  of `default_padding + N - 1` code points, carrying the last `N - 1` code points of
  the previous refill in front.  Both consume `default_padding - N + 1` code-point
  units per full refill and report `found = (N - 1) + consumed`.  We model the window
  refill loop once, at the level of the stream of decoded code-point units
  (`chunkGrams` below), parameterised by the unit decoder `toUnits`
  (identity / bytewise `tolower` for the ASCII reader, the UTF-8 decode loop of
  `readUTF8CodePoints` for the UTF-8 reader).  Positions of the window that the source
  leaves unread garbage (slots at index `≥ found`, and the bytes the ASCII reader
  loads from the padding past the end of the string) are modelled as absent/zero: the
  source never lets them reach a counted n-gram nor the carried tail.
* The needle/haystack passes interleave reading a refill with hashing its windows; the
  per-window actions do not influence the reader state, so the model first collects
  the full window list (`chunkGrams`) and then folds the per-window table/distance
  updates over it, in the same order.
-/

namespace Ngram

/-- `map_size` (source line 41): `1u << 16`. -/
def map_size : Nat := 65536

/-- `max_string_size` (source line 44): `1u << 15`; haystacks longer than this take the
fast path. -/
def max_string_size : Nat := 32768

/-- `default_padding` (source line 47). -/
def default_padding : Nat := 16

/-- Modulus of `size_t` arithmetic (the `distance` counter and offset arithmetic). -/
def sizeT : Nat := 2 ^ 64

/-- Wrapping `size_t` subtraction `a - b` (both arguments `< sizeT`). -/
def subSizeT (a b : Nat) : Nat := (sizeT + a - b) % sizeT

/-- `std::tolower` in the C locale applied to a byte value (source line 76). -/
def tolowerByte (b : Nat) : Nat := if 65 ≤ b ∧ b ≤ 90 then b + 32 else b

/-- The unit stream read by `readASCIICodePoints` (source lines 79-105): one byte per
code point, bytewise-lowered when `CaseInsensitive` (the `unrollLowering` call on
lines 96-100 lowers each freshly read byte exactly once, before it is ever hashed or
carried over). -/
def asciiCodePoints (ci : Bool) (data : List Nat) : List Nat :=
  if ci then data.map tolowerByte else data

/-- Modelled from the spec: `UTF8::seqLength` (`Common/UTF8Helpers.h`, not under
`src/`) - the leading-byte length table giving 1, 2, 3 or 4 bytes per code point
(continuation or stray bytes advance by one byte). -/
def utf8SeqLength (b : Nat) : Nat :=
  if b < 128 then 1
  else if b < 192 then 1
  else if b < 224 then 2
  else if b < 240 then 3
  else 4

/-- Little-endian packing of the raw bytes of one code point into a 32-bit unit
(the `memcpy(&res, pos, length)` on source lines 122-138). -/
def utf8Pack : List Nat → Nat
  | [] => 0
  | b :: bs => b + 256 * utf8Pack bs

/-- Clear bit `5 + 8 * j` of a 32-bit unit: `res &= ~(1u << (5 + j * CHAR_BIT))`. -/
def clearBit5 (j res : Nat) : Nat := res &&& (4294967295 ^^^ (1 <<< (5 + 8 * j)))

/-- The approximate case folding of `readUTF8CodePoints` (source lines 143-159):
zero the fifth bit of each of the `length` constituent bytes (fallthrough switch). -/
def utf8CaseFold (len res : Nat) : Nat :=
  match len with
  | 4 => clearBit5 0 (clearBit5 1 (clearBit5 2 (clearBit5 3 res)))
  | 3 => clearBit5 0 (clearBit5 1 (clearBit5 2 res))
  | 2 => clearBit5 0 (clearBit5 1 res)
  | _ => clearBit5 0 res

/-- The unit stream read by `readUTF8CodePoints` (source lines 107-165): decode
`utf8SeqLength` bytes per code point, clamped at the end of the string
(`if (pos + length > end) length = end - pos`), pack them little-endian, and
optionally case-fold. -/
def utf8CodePoints (ci : Bool) : List Nat → List Nat
  | [] => []
  | b :: bs =>
    let len := min (utf8SeqLength b) (bs.length + 1)
    let res := utf8Pack ((b :: bs).take len)
    (if ci then utf8CaseFold len res else res) :: utf8CodePoints ci (bs.drop (len - 1))
termination_by l => l.length
decreasing_by
  simp only [List.length_drop, List.length_cons, Nat.min_def]
  split <;> omega

/-- Modelled from the spec: `intHashCRC32` (`Common/HashTable/Hash.h`, not under
`src/`) - hardware CRC32-C (`_mm_crc32_u64`) of a 64-bit value with initial
accumulator `-1`, here bit-serial with the reflected polynomial `0x82F63B78`. -/
def intHashCRC32 (x : Nat) : Nat :=
  (List.range 64).foldl
    (fun crc i =>
      if (crc ^^^ (x >>> i)) % 2 = 1 then (crc >>> 1) ^^^ 2197175160 else crc >>> 1)
    4294967295

/-- `unalignedLoad<UInt32>`: four consecutive bytes as a little-endian 32-bit value. -/
def unalignedLoad32 (w : List Nat) : Nat :=
  w.getD 0 0 + 256 * w.getD 1 0 + 65536 * w.getD 2 0 + 16777216 * w.getD 3 0

/-- `ASCIIHash` (source lines 58-61): `intHashCRC32(unalignedLoad<UInt32>(cp)) & 0xFFFF`
(`& 0xFFFF` is `% 65536`). -/
def ASCIIHash (w : List Nat) : Nat := intHashCRC32 (unalignedLoad32 w) % 65536

/-- `UTF8Hash` (source lines 63-71), portable branch:
`(intHashCRC32(cp0 << 32 | cp1) ^ intHashCRC32(cp2)) & 0xFFFF`. -/
def UTF8Hash (w : List Nat) : Nat :=
  (intHashCRC32 ((w.getD 0 0 <<< 32) ||| w.getD 1 0) ^^^ intHashCRC32 (w.getD 2 0)) % 65536

/-- All length-`N` windows of a unit stream: the reference n-gram extraction the
chunked reader is proved to implement. -/
def slidingWins (N : Nat) (l : List Nat) : List (List Nat) :=
  (List.range (l.length + 1 - N)).map (fun i => (l.drop i).take N)

/-- One pass of the `do { ... } while (start < end && (found = read_code_points(...)))`
loop of `calculateNeedleStats` / `calculateHaystackStatsAndMetric` (source lines
188-194 and 229-243), at the unit level.  A refill takes the carried tail `tail`
(the `N - 1` code points the reader copies to the front of the window, zeroes on the
first refill), consumes the next `default_padding - N + 1` units of the stream, and
reports `found = (N - 1) + consumed`; the body hashes the windows
`cp[i..i+N)` for `start ≤ i`, `i + N ≤ found` (`start = N - 1` on the first refill,
`0` afterwards), and the next tail is `cp[default_padding - N + 1..+(N-1))`. -/
def chunkGrams (N start : Nat) (tail units : List Nat) : List (List Nat) :=
  if units = [] then []
  else
    let K := default_padding - N + 1
    let cp := tail ++ units.take K
    let found := (N - 1) + min K units.length
    (((List.range (found + 1 - N)).drop start).map (fun i => (cp.drop i).take N))
      ++ chunkGrams N 0 ((cp.drop K).take (N - 1)) (units.drop K)
termination_by units.length
decreasing_by
  have hK : 1 ≤ default_padding - N + 1 := Nat.le_add_left 1 _
  have hu : 0 < units.length := List.length_pos.mpr (by assumption)
  simp only [List.length_drop]
  omega

/-- The 16-bit hashes of all n-grams the reader/hasher pair produces for one input
string, in production order. -/
def gramHashes (N : Nat) (toUnits : List Nat → List Nat) (hash : List Nat → Nat)
    (data : List Nat) : List Nat :=
  (chunkGrams N (N - 1) (List.replicate (N - 1) 0) (toUnits data)).map hash

/-! ### The chunked window reader produces exactly the sliding windows

The refill loop carries the last `N - 1` consumed units in front of each new fill, so
the windows hashed across all refills are precisely all length-`N` sliding windows of
the unit stream.  This is the content of `calculateNeedleStats`'s `len` accounting
(`len += found - N + 1` with initial value `-(N - 1)` counts exactly the hashed
windows). -/

theorem chunkGrams_nil (N start : Nat) (tail : List Nat) :
    chunkGrams N start tail [] = [] := by
  rw [chunkGrams]
  simp

theorem chunkGrams_cons (N start : Nat) (tail units : List Nat) (h : ¬ units = []) :
    chunkGrams N start tail units =
      (((List.range (((N - 1) + min (default_padding - N + 1) units.length) + 1 - N)).drop
          start).map
        (fun i => ((tail ++ units.take (default_padding - N + 1)).drop i).take N))
      ++ chunkGrams N 0
          (((tail ++ units.take (default_padding - N + 1)).drop
              (default_padding - N + 1)).take (N - 1))
          (units.drop (default_padding - N + 1)) := by
  rw [chunkGrams]
  simp [h]

theorem drop_append_ge {α : Type} (l₁ l₂ : List α) (n : Nat) (h : l₁.length ≤ n) :
    (l₁ ++ l₂).drop n = l₂.drop (n - l₁.length) := by
  conv_lhs => rw [show n = l₁.length + (n - l₁.length) from by omega]
  rw [List.drop_append]

theorem range_drop (m s : Nat) :
    (List.range m).drop s = (List.range (m - s)).map (fun j => s + j) := by
  rcases Nat.le_total s m with h | h
  · have hm : m = s + (m - s) := by omega
    conv_lhs => rw [hm, List.range_add]
    have h2 := List.drop_left (List.range s) ((List.range (m - s)).map (fun x => s + x))
    rw [List.length_range] at h2
    rw [h2]
  · rw [List.drop_eq_nil_of_le (by simpa using h), Nat.sub_eq_zero_of_le h]
    simp

theorem slidingWins_split (N K : Nat) (l : List Nat) (hN : 1 ≤ N)
    (h : K + (N - 1) ≤ l.length) :
    slidingWins N l
      = (List.range K).map (fun i => (l.drop i).take N) ++ slidingWins N (l.drop K) := by
  unfold slidingWins
  have h1 : l.length + 1 - N = K + ((l.drop K).length + 1 - N) := by
    simp only [List.length_drop]
    omega
  rw [h1, List.range_add, List.map_append, List.map_map]
  congr 1
  apply List.map_congr_left
  intro j _
  simp only [Function.comp_apply, List.drop_drop]

/-- The carried tail of a full refill, glued back onto the rest of the stream, is a
plain suffix of the stream. -/
theorem tail_simp (N K : Nat) (front units : List Nat) (hf : front.length = N - 1)
    (hKN : N - 1 ≤ K) :
    ((front ++ units.take K).drop K).take (N - 1)
      = (units.drop (K - (N - 1))).take (N - 1) := by
  rw [drop_append_ge front (units.take K) K (by omega), hf, List.drop_take,
    List.take_take]
  have h2 : min (N - 1) (K - (K - (N - 1))) = N - 1 := by
    have : K - (K - (N - 1)) = N - 1 := by omega
    rw [this, min_self]
  rw [h2]

theorem tail_glue (N K : Nat) (front units : List Nat) (hf : front.length = N - 1)
    (hKN : N - 1 ≤ K) :
    ((front ++ units.take K).drop K).take (N - 1) ++ units.drop K
      = units.drop (K - (N - 1)) := by
  rw [tail_simp N K front units hf hKN]
  have h3 : units.drop K = (units.drop (K - (N - 1))).drop (N - 1) := by
    rw [List.drop_drop]
    congr 1
    omega
  rw [h3, List.take_append_drop]

theorem tail_len (N K : Nat) (front units : List Nat) (hf : front.length = N - 1)
    (hKN : N - 1 ≤ K) (hlt : K ≤ units.length) :
    (((front ++ units.take K).drop K).take (N - 1)).length = N - 1 := by
  rw [tail_simp N K front units hf hKN]
  simp only [List.length_take, List.length_drop]
  omega

theorem chunkGrams_later (N : Nat) (hN1 : 1 ≤ N) (hN9 : N ≤ 9) :
    ∀ (n : Nat) (units tail : List Nat), units.length = n → tail.length = N - 1 →
    chunkGrams N 0 tail units = slidingWins N (tail ++ units) := by
  have hd : default_padding = 16 := rfl
  intro n
  induction n using Nat.strong_induction_on with
  | _ n ih =>
    intro units tail hlen htail
    by_cases hu : units = []
    · subst hu
      rw [chunkGrams_nil]
      unfold slidingWins
      have : (tail ++ []).length + 1 - N = 0 := by
        simp only [List.append_nil]
        omega
      rw [this]
      simp
    · rw [chunkGrams_cons _ _ _ _ hu]
      set K := default_padding - N + 1 with hK
      have hK16 : K = 16 - N + 1 := by rw [hK, hd]
      have hKN : N - 1 ≤ K := by omega
      rcases le_or_lt units.length K with hle | hlt
      · -- last refill: the whole remaining stream fits in one fill
        have htake : units.take K = units := List.take_of_length_le hle
        have hmin : min K units.length = units.length := by omega
        have hdrop : units.drop K = [] := List.drop_eq_nil_of_le hle
        rw [htake, hmin, hdrop, chunkGrams_nil, List.append_nil, List.drop_zero]
        unfold slidingWins
        have harith : N - 1 + units.length + 1 - N = (tail ++ units).length + 1 - N := by
          simp only [List.length_append, htail]
        rw [harith]
      · -- full refill: the first K windows, then recurse on the K-shifted stream
        have hmin : min K units.length = K := by omega
        rw [hmin]
        have harith : N - 1 + K + 1 - N = K := by omega
        rw [harith, List.drop_zero]
        have hIH := ih (units.length - K) (by omega)
          (units.drop K)
          (((tail ++ units.take K).drop K).take (N - 1))
          (by simp only [List.length_drop])
          (tail_len N K tail units htail hKN (by omega))
        rw [hIH, tail_glue N K tail units htail hKN]
        have hglue2 : units.drop (K - (N - 1)) = (tail ++ units).drop K := by
          rw [drop_append_ge tail units K (by omega), htail]
        rw [hglue2]
        rw [slidingWins_split N K (tail ++ units) hN1
          (by simp only [List.length_append, htail]; omega)]
        congr 1
        apply List.map_congr_left
        intro i hi
        rw [List.mem_range] at hi
        have hrw : tail ++ units.take K = (tail ++ units).take (tail.length + K) :=
          (List.take_append K).symm
        rw [hrw, List.drop_take, List.take_take]
        congr 1
        exact min_eq_left (by omega)

theorem chunkGrams_first (N : Nat) (hN1 : 1 ≤ N) (hN9 : N ≤ 9) (units : List Nat) :
    chunkGrams N (N - 1) (List.replicate (N - 1) 0) units = slidingWins N units := by
  have hd : default_padding = 16 := rfl
  by_cases hu : units = []
  · subst hu
    rw [chunkGrams_nil]
    unfold slidingWins
    have : ([] : List Nat).length + 1 - N = 0 := by simp; omega
    rw [this]
    simp
  · rw [chunkGrams_cons _ _ _ _ hu]
    set K := default_padding - N + 1 with hK
    have hK16 : K = 16 - N + 1 := by rw [hK, hd]
    have hKN : N - 1 ≤ K := by omega
    set m := min K units.length with hm
    have harith : N - 1 + m + 1 - N = m := by omega
    rw [harith, range_drop, List.map_map]
    have hwin : ∀ j ∈ List.range (m - (N - 1)),
        ((fun i => ((List.replicate (N - 1) 0 ++ units.take K).drop i).take N) ∘
          (fun j => N - 1 + j)) j = (units.drop j).take N := by
      intro j hj
      rw [List.mem_range] at hj
      simp only [Function.comp_apply]
      have hsplit : ((List.replicate (N - 1) 0 ++ units.take K).drop (N - 1 + j))
          = (units.take K).drop j := by
        rw [drop_append_ge _ _ _ (by simp), List.length_replicate]
        congr 1
        omega
      rw [hsplit, List.drop_take, List.take_take]
      congr 1
      exact min_eq_left (by omega)
    rw [List.map_congr_left hwin]
    rcases le_or_lt units.length K with hle | hlt
    · -- the whole stream fits in the first fill
      have hdrop : units.drop K = [] := List.drop_eq_nil_of_le hle
      rw [hdrop, chunkGrams_nil, List.append_nil]
      unfold slidingWins
      have : m - (N - 1) = units.length + 1 - N := by omega
      rw [this]
    · -- first fill of a long stream, then the generic refill lemma
      rw [chunkGrams_later N hN1 hN9 (units.drop K).length (units.drop K) _ rfl
        (tail_len N K (List.replicate (N - 1) 0) units (by simp) hKN (by omega))]
      rw [tail_glue N K (List.replicate (N - 1) 0) units (by simp) hKN]
      rw [slidingWins_split N (K - (N - 1)) units hN1 (by omega)]
      have hmm : m - (N - 1) = K - (N - 1) := by omega
      rw [hmm]

/-- Main reader correctness: the hashes produced by the chunked reader are the hashes
of all sliding `N`-windows of the decoded unit stream. -/
theorem gramHashes_eq (N : Nat) (hN1 : 1 ≤ N) (hN9 : N ≤ 9)
    (toUnits : List Nat → List Nat) (hash : List Nat → Nat) (data : List Nat) :
    gramHashes N toUnits hash data = (slidingWins N (toUnits data)).map hash := by
  unfold gramHashes
  rw [chunkGrams_first N hN1 hN9]

theorem length_slidingWins (N : Nat) (l : List Nat) :
    (slidingWins N l).length = l.length + 1 - N := by
  unfold slidingWins
  simp

theorem length_gramHashes (N : Nat) (hN1 : 1 ≤ N) (hN9 : N ≤ 9)
    (toUnits : List Nat → List Nat) (hash : List Nat → Nat) (data : List Nat) :
    (gramHashes N toUnits hash data).length = (toUnits data).length + 1 - N := by
  rw [gramHashes_eq N hN1 hN9]
  simp [length_slidingWins]

/-! ### The stats table, the needle pass and the haystack scoring pass -/

/-- The test `static_cast<Int16>(ngram_stats[hash]) > 0` (source line 234): the
`Int16` reinterpretation of a stored `UInt16` cell is positive. -/
def int16Pos (v : Nat) : Prop := 0 < v ∧ v < 32768

instance (v : Nat) : Decidable (int16Pos v) := by
  unfold int16Pos
  infer_instance

/-- `++ngram_stats[hash_functor(cp + i)]` with `UInt16` wrap (source line 192). -/
def bumpStat (t : Nat → Nat) (h : Nat) : Nat → Nat :=
  Function.update t h ((t h + 1) % map_size)

/-- The needle inner loop (source lines 191-192): accumulate every n-gram hash into
the table, left to right. -/
def accumulateStats (t : Nat → Nat) : List Nat → (Nat → Nat)
  | [] => t
  | h :: hs => accumulateStats (bumpStat t h) hs

/-- `calculateNeedleStats` (source lines 167-197): bail out when `size < N`
(lines 174-176) leaving the table untouched, otherwise accumulate every n-gram hash
and return `len`.  The `size_t` accounting `len = -N + 1; len += found - N + 1` per
refill telescopes to `(units - N + 1) mod 2 ^ 64`, where `units` is the total number
of decoded code points: each refill contributes exactly the number of units it
consumed.  Note the byte-based guard does not prevent the `size_t` wrap: a UTF-8
needle of at least `N` bytes but fewer than `N - 1` code points makes `len` end
below zero, so the returned "count" is a value close to `2 ^ 64`. -/
def calculateNeedleStats (N : Nat) (toUnits : List Nat → List Nat)
    (hash : List Nat → Nat) (data : List Nat) (t : Nat → Nat) : (Nat → Nat) × Nat :=
  if data.length < N then (t, 0)
  else
    let hs := gramHashes N toUnits hash data
    (accumulateStats t hs, (sizeT + (toUnits data).length + 1 - N) % sizeT)

/-- The state of the scoring loop of `calculateHaystackStatsAndMetric`: the stats
table, the running `size_t` `distance`, the `ngram_storage` trail and `ngram_cnt`. -/
structure ScanState where
  stats : Nat → Nat
  distance : Nat
  trail : List Nat
  cnt : Nat

/-- One iteration of the scoring loop (source lines 231-241): read the addressed cell
as `Int16` and decrement `distance` if it is positive, increment it otherwise (both
with `size_t` wrap), record the hash in the trail, and decrement the cell (with
`UInt16` wrap). -/
def scanStep (s : ScanState) (h : Nat) : ScanState :=
  { stats := Function.update s.stats h ((s.stats h + (map_size - 1)) % map_size)
    distance := if int16Pos (s.stats h) then (s.distance + (sizeT - 1)) % sizeT
      else (s.distance + 1) % sizeT
    trail := s.trail ++ [h]
    cnt := s.cnt + 1 }

/-- The scoring loop over the haystack's n-gram hashes, in production order. -/
def scanFold (st : ScanState) (ys : List Nat) : ScanState := ys.foldl scanStep st

/-- The table restoration loop (source lines 246-247): replay
`++ngram_stats[ngram_storage[i]]` over the trail. -/
def restoreStats (t : Nat → Nat) : List Nat → (Nat → Nat)
  | [] => t
  | h :: hs => restoreStats (Function.update t h ((t h + 1) % map_size)) hs

/-- `calculateHaystackStatsAndMetric` (source lines 199-249): score every haystack
n-gram hash against the table, then restore the table from the trail.  Returns
`(restored table, final distance, ngram_cnt)`. -/
def calculateHaystackStatsAndMetric (N : Nat) (toUnits : List Nat → List Nat)
    (hash : List Nat → Nat) (data : List Nat) (t : Nat → Nat) (distance : Nat) :
    (Nat → Nat) × Nat × Nat :=
  let fin := scanFold ⟨t, distance, [], 0⟩ (gramHashes N toUnits hash data)
  (restoreStats fin.stats fin.trail, fin.distance, fin.cnt)

/-! ### Batch drivers -/

/-- `constant_constant` (source lines 260-282), with the `Float32` result as an exact
rational: zero a fresh table, load the needle, and either score the haystack and
divide by `max(first_size + second_size, 1)`, or force `1.0` when the haystack is
longer than `max_string_size`. -/
def constant_constant (N : Nat) (toUnits : List Nat → List Nat)
    (hash : List Nat → Nat) (data needle : List Nat) : ℚ :=
  let second := calculateNeedleStats N toUnits hash needle (fun _ => 0)
  if data.length ≤ max_string_size then
    let first := calculateHaystackStatsAndMetric N toUnits hash data second.1 second.2
    (first.2.1 : ℚ) / ((max ((first.2.2 + second.2) % sizeT) 1 : Nat) : ℚ)
  else 1

/-- The row loop of `vector_constant` (source lines 298-316): `haystack_size` is the
`size_t` value `offsets[i] - prev_offset - 1` and the row starts at byte
`prev_offset`; the stats table is threaded through the rows (the scorer restored it),
oversized rows are forced to `1.0` without touching the table, and `distance` is
reset to `needle_stats_size` after every row. -/
def vcLoop (N : Nat) (toUnits : List Nat → List Nat) (hash : List Nat → Nat)
    (data : List Nat) (nss : Nat) (t : Nat → Nat) (prev : Nat) :
    List Nat → List ℚ
  | [] => []
  | off :: offs =>
    let hsize := subSizeT (subSizeT off prev) 1
    if hsize ≤ max_string_size then
      let r := calculateHaystackStatsAndMetric N toUnits hash
        ((data.drop prev).take hsize) t nss
      ((r.2.1 : ℚ) / ((max ((r.2.2 + nss) % sizeT) 1 : Nat) : ℚ))
        :: vcLoop N toUnits hash data nss r.1 off offs
    else
      (1 : ℚ) :: vcLoop N toUnits hash data nss t off offs

/-- `vector_constant` (source lines 284-317): zero a fresh table, load the needle
once, then iterate the rows of the column under the `(prev_offset, offsets[i])`
convention. -/
def vector_constant (N : Nat) (toUnits : List Nat → List Nat) (hash : List Nat → Nat)
    (data offsets needle : List Nat) : List ℚ :=
  let second := calculateNeedleStats N toUnits hash needle (fun _ => 0)
  vcLoop N toUnits hash data second.2 second.1 0 offsets

/-- `ngramDistance` = `NgramDistanceImpl<4, UInt8, false, false>` (source line 341),
scalar entry point. -/
def ngramDistance (data needle : List Nat) : ℚ :=
  constant_constant 4 (asciiCodePoints false) ASCIIHash data needle

/-- `ngramDistanceCaseInsensitive` = `NgramDistanceImpl<4, UInt8, false, true>`
(source line 342), scalar entry point. -/
def ngramDistanceCaseInsensitive (data needle : List Nat) : ℚ :=
  constant_constant 4 (asciiCodePoints true) ASCIIHash data needle

/-- `ngramDistanceUTF8` = `NgramDistanceImpl<3, UInt32, true, false>` (source
line 343), scalar entry point. -/
def ngramDistanceUTF8 (data needle : List Nat) : ℚ :=
  constant_constant 3 (utf8CodePoints false) UTF8Hash data needle

/-- `ngramDistanceCaseInsensitiveUTF8` = `NgramDistanceImpl<3, UInt32, true, true>`
(source line 344), scalar entry point. -/
def ngramDistanceCaseInsensitiveUTF8 (data needle : List Nat) : ℚ :=
  constant_constant 3 (utf8CodePoints true) UTF8Hash data needle

/-! ### Pointwise values of the table passes -/

theorem accumulateStats_val (xs : List Nat) :
    ∀ (t : Nat → Nat) (h : Nat), t h < map_size →
    accumulateStats t xs h = (t h + xs.count h) % map_size := by
  induction xs with
  | nil =>
    intro t h ht
    simp only [accumulateStats, List.count_nil, Nat.add_zero, Nat.mod_eq_of_lt ht]
  | cons y ys ih =>
    intro t h ht
    have hlt : bumpStat t y h < map_size := by
      unfold bumpStat
      by_cases hc : h = y
      · subst hc
        rw [Function.update_same]
        exact Nat.mod_lt _ (by norm_num [map_size])
      · rw [Function.update_noteq hc]
        exact ht
    rw [accumulateStats, ih (bumpStat t y) h hlt]
    unfold bumpStat
    by_cases hc : h = y
    · subst hc
      rw [Function.update_same, Nat.mod_add_mod, List.count_cons]
      simp only [beq_self_eq_true, if_true]
      congr 1
      omega
    · rw [Function.update_noteq hc, List.count_cons]
      have : (y == h) = false := by
        simp only [beq_eq_false_iff_ne, ne_eq]
        exact fun hyh => hc hyh.symm
      rw [this]
      simp

theorem restoreStats_eq_accumulate (xs : List Nat) :
    ∀ t, restoreStats t xs = accumulateStats t xs := by
  induction xs with
  | nil => intro t; rfl
  | cons y ys ih =>
    intro t
    rw [restoreStats, accumulateStats, ih]
    rfl

theorem scanFold_stats (ys : List Nat) :
    ∀ (st : ScanState) (h : Nat), st.stats h < map_size →
    (scanFold st ys).stats h
      = (st.stats h + (map_size - 1) * ys.count h) % map_size := by
  induction ys with
  | nil =>
    intro st h ht
    simp only [scanFold, List.foldl_nil, List.count_nil, Nat.mul_zero, Nat.add_zero,
      Nat.mod_eq_of_lt ht]
  | cons y ys ih =>
    intro st h ht
    have hstep : (scanStep st y).stats h < map_size := by
      unfold scanStep
      by_cases hc : h = y
      · subst hc
        simp only [Function.update_same]
        exact Nat.mod_lt _ (by norm_num [map_size])
      · simp only [Function.update_noteq hc]
        exact ht
    rw [scanFold, List.foldl_cons, ← scanFold, ih (scanStep st y) h hstep]
    unfold scanStep
    by_cases hc : h = y
    · subst hc
      simp only [Function.update_same]
      rw [Nat.mod_add_mod, List.count_cons]
      simp only [beq_self_eq_true, if_true, Nat.mul_add, Nat.mul_one]
      congr 1
      omega
    · simp only [Function.update_noteq hc]
      rw [List.count_cons]
      have : (y == h) = false := by
        simp only [beq_eq_false_iff_ne, ne_eq]
        exact fun hyh => hc hyh.symm
      rw [this]
      simp

theorem scanFold_trail (ys : List Nat) :
    ∀ st, (scanFold st ys).trail = st.trail ++ ys := by
  induction ys with
  | nil => intro st; simp [scanFold]
  | cons y ys ih =>
    intro st
    rw [scanFold, List.foldl_cons, ← scanFold, ih]
    simp [scanStep]

theorem scanFold_cnt (ys : List Nat) :
    ∀ st, (scanFold st ys).cnt = st.cnt + ys.length := by
  induction ys with
  | nil => intro st; simp [scanFold]
  | cons y ys ih =>
    intro st
    rw [scanFold, List.foldl_cons, ← scanFold, ih]
    simp [scanStep]
    omega

/-- The number of `--distance` steps the scan performs on a given table: the number
of scored n-grams that see an `Int16`-positive cell. -/
def decCount (t : Nat → Nat) : List Nat → Nat
  | [] => 0
  | y :: ys => (if int16Pos (t y) then 1 else 0)
      + decCount (Function.update t y ((t y + (map_size - 1)) % map_size)) ys

theorem scanFold_distance (ys : List Nat) :
    ∀ st, st.distance < sizeT →
    (scanFold st ys).distance
      = (st.distance + ys.length + (sizeT - 2) * decCount st.stats ys) % sizeT := by
  have hsz : sizeT = 18446744073709551616 := rfl
  induction ys with
  | nil =>
    intro st hd
    simp only [scanFold, List.foldl_nil, decCount, List.length_nil, Nat.add_zero,
      Nat.mul_zero, Nat.mod_eq_of_lt hd]
  | cons y ys ih =>
    intro st hd
    have hstep : (scanStep st y).distance < sizeT := by
      unfold scanStep
      by_cases hc : int16Pos (st.stats y)
      · simp only [if_pos hc]
        exact Nat.mod_lt _ (by omega)
      · simp only [if_neg hc]
        exact Nat.mod_lt _ (by omega)
    rw [scanFold, List.foldl_cons, ← scanFold, ih (scanStep st y) hstep]
    show ((scanStep st y).distance + ys.length
        + (sizeT - 2) * decCount (scanStep st y).stats ys) % sizeT
      = (st.distance + (y :: ys).length
        + (sizeT - 2) * decCount st.stats (y :: ys)) % sizeT
    rw [decCount]
    have hstats : (scanStep st y).stats
        = Function.update st.stats y ((st.stats y + (map_size - 1)) % map_size) := rfl
    rw [hstats]
    by_cases hc : int16Pos (st.stats y)
    · have hdist : (scanStep st y).distance = (st.distance + (sizeT - 1)) % sizeT := by
        unfold scanStep
        simp only [if_pos hc]
      rw [hdist, if_pos hc, List.length_cons, Nat.mul_add, Nat.mul_one]
      generalize (sizeT - 2) *
        decCount (Function.update st.stats y ((st.stats y + (map_size - 1)) % map_size)) ys = X
      simp only [hsz]
      omega
    · have hdist : (scanStep st y).distance = (st.distance + 1) % sizeT := by
        unfold scanStep
        simp only [if_neg hc]
      rw [hdist, if_neg hc, List.length_cons, Nat.zero_add]
      generalize (sizeT - 2) *
        decCount (Function.update st.stats y ((st.stats y + (map_size - 1)) % map_size)) ys = X
      simp only [hsz]
      omega

/-! ### Per-cell analysis of the scoring decrements

A cell that starts at `s` and is decremented (with `UInt16` wrap) after each read is
seen `Int16`-positive a computable number of times; `decCount` decomposes into a sum
of these per-cell counts. -/

/-- Among `k` successive reads of a cell starting at `s` (each followed by a wrapping
decrement), the number of reads that see an `Int16`-positive value. -/
def posReads (s k : Nat) : Nat :=
  ((List.range k).map
    (fun j => if int16Pos ((s + (map_size - 1) * j) % map_size) then 1 else 0)).sum

theorem posReads_zero (s : Nat) : posReads s 0 = 0 := by
  simp [posReads]

theorem posReads_succ (s k : Nat) :
    posReads s (k + 1) = posReads s k
      + (if int16Pos ((s + (map_size - 1) * k) % map_size) then 1 else 0) := by
  unfold posReads
  rw [List.range_succ, List.map_append, List.sum_append]
  simp

theorem posReads_le_succ (s k : Nat) : posReads s k ≤ posReads s (k + 1) := by
  rw [posReads_succ]
  omega

theorem posReads_mono (s : Nat) : ∀ k j, posReads s k ≤ posReads s (k + j) := by
  intro k j
  induction j with
  | zero => exact Nat.le_refl _
  | succ j ih => exact Nat.le_trans ih (posReads_le_succ s (k + j))

/-- Closed form of `posReads` for at most `32768` reads (one haystack row can score
at most `32768` n-grams, too few for a cell to wrap all the way around). -/
theorem posReads_closed (s : Nat) (hs : s < map_size) :
    ∀ k, k ≤ 32768 →
    posReads s k = if s < 32768 then min s k else k - (s - 32767) := by
  have hm : map_size = 65536 := rfl
  intro k
  induction k with
  | zero =>
    intro _
    rw [posReads_zero]
    split <;> omega
  | succ k ih =>
    intro hk
    rw [posReads_succ, ih (by omega)]
    have hval : (s + (map_size - 1) * k) % map_size
        = if k ≤ s then s - k else map_size + s - k := by
      rw [hm]
      split <;> omega
    rw [hval]
    unfold int16Pos
    split_ifs <;> omega

theorem posReads_no_wrap (c k : Nat) (hc : c ≤ 32767) (hk : k ≤ 32768) :
    posReads c k = min c k := by
  rw [posReads_closed c (by rw [show map_size = 65536 from rfl]; omega) k hk]
  rw [if_pos (by omega)]

theorem posReads_bound (s k : Nat) (hs : s < map_size) (hk : k ≤ 32768) :
    2 * posReads s k ≤ k + s := by
  have hm : map_size = 65536 := rfl
  rw [posReads_closed s hs k hk]
  rw [hm] at hs
  split_ifs <;> omega

/-- `decCount` over a table written as "base counts plus `u` wrapping decrements"
decomposes into per-cell `posReads` increments. -/
theorem decCount_eq (s0 : Nat → Nat) :
    ∀ (ys : List Nat) (u : Nat → Nat), (∀ y ∈ ys, y < map_size) →
    decCount (fun h => (s0 h + (map_size - 1) * u h) % map_size) ys
      = ∑ h ∈ Finset.range map_size,
          (posReads (s0 h) (u h + ys.count h) - posReads (s0 h) (u h)) := by
  intro ys
  induction ys with
  | nil =>
    intro u _
    simp [decCount]
  | cons y ys ih =>
    intro u hy
    have hy' : ∀ z ∈ ys, z < map_size := fun z hz => hy z (List.mem_cons_of_mem _ hz)
    have hymem : y < map_size := hy y (List.mem_cons_self _ _)
    rw [decCount]
    have htab : Function.update (fun h => (s0 h + (map_size - 1) * u h) % map_size) y
        (((s0 y + (map_size - 1) * u y) % map_size + (map_size - 1)) % map_size)
        = fun h => (s0 h + (map_size - 1) * (Function.update u y (u y + 1)) h)
            % map_size := by
      funext h
      by_cases hc : h = y
      · subst hc
        simp only [Function.update_same]
        have hm : map_size = 65536 := rfl
        simp only [hm]
        omega
      · rw [Function.update_noteq hc, Function.update_noteq hc]
    rw [htab, ih (Function.update u y (u y + 1)) hy']
    have hpt : ∀ h ∈ Finset.range map_size,
        posReads (s0 h) (u h + (y :: ys).count h) - posReads (s0 h) (u h)
          = (posReads (s0 h) ((Function.update u y (u y + 1)) h + ys.count h)
              - posReads (s0 h) ((Function.update u y (u y + 1)) h))
            + (if y = h
                then (if int16Pos ((s0 y + (map_size - 1) * u y) % map_size)
                  then 1 else 0)
                else 0) := by
      intro h _
      by_cases hc : h = y
      · subst hc
        rw [Function.update_same, if_pos rfl, List.count_cons]
        simp only [beq_self_eq_true, if_true]
        have hsucc := posReads_succ (s0 h) (u h)
        have hmono1 := posReads_le_succ (s0 h) (u h)
        have hmono2 := posReads_mono (s0 h) (u h + 1) (ys.count h)
        have harr : u h + (ys.count h + 1) = u h + 1 + ys.count h := by omega
        rw [harr]
        omega
      · rw [Function.update_noteq hc, List.count_cons]
        have hne : (y == h) = false := by
          simp only [beq_eq_false_iff_ne, ne_eq]
          exact fun hyh => hc hyh.symm
        rw [hne, if_neg (show ¬ y = h from fun hyh => hc hyh.symm)]
        simp
    rw [Finset.sum_congr rfl hpt, Finset.sum_add_distrib, Finset.sum_ite_eq]
    rw [if_pos (Finset.mem_range.mpr hymem)]
    omega

/-- `decCount` on a plain table is the sum of per-cell `posReads`. -/
theorem decCount_posReads (t : Nat → Nat) (ys : List Nat)
    (ht : ∀ h, t h < map_size) (hy : ∀ y ∈ ys, y < map_size) :
    decCount t ys = ∑ h ∈ Finset.range map_size, posReads (t h) (ys.count h) := by
  have h0 : (fun h => (t h + (map_size - 1) * (fun _ => (0 : Nat)) h) % map_size)
      = t := by
    funext h
    simp [Nat.mod_eq_of_lt (ht h)]
  have hmain := decCount_eq t ys (fun _ => 0) hy
  rw [h0] at hmain
  rw [hmain]
  apply Finset.sum_congr rfl
  intro h _
  rw [posReads_zero]
  simp

/-- Total multiset size: the counts of a list of hashes `< map_size` sum to its
length. -/
theorem sum_count_eq_length (l : List Nat) (hl : ∀ y ∈ l, y < map_size) :
    ∑ h ∈ Finset.range map_size, l.count h = l.length := by
  induction l with
  | nil => simp
  | cons y ys ih =>
    have hy : y < map_size := hl y (List.mem_cons_self _ _)
    have hys := ih (fun z hz => hl z (List.mem_cons_of_mem _ hz))
    simp only [List.count_cons]
    rw [Finset.sum_add_distrib, hys]
    have hone : (∑ h ∈ Finset.range map_size, if (y == h) = true then 1 else 0)
        = 1 := by
      have : ∀ h ∈ Finset.range map_size,
          (if (y == h) = true then (1 : Nat) else 0) = (if y = h then 1 else 0) := by
        intro h _
        simp [beq_iff_eq]
      rw [Finset.sum_congr rfl this, Finset.sum_ite_eq,
        if_pos (Finset.mem_range.mpr hy)]
    rw [hone]
    simp

/-- The multiset symmetric difference of two hash lists, counted over the 16-bit
hash space. -/
def symDiffCount (xs ys : List Nat) : Nat :=
  ∑ h ∈ Finset.range map_size,
    ((xs.count h - ys.count h) + (ys.count h - xs.count h))

theorem symDiffCount_comm (xs ys : List Nat) :
    symDiffCount xs ys = symDiffCount ys xs := by
  unfold symDiffCount
  apply Finset.sum_congr rfl
  intro h _
  omega

/-! ### Scorer-level theorems -/

theorem gramHashes_mem_lt (N : Nat) (toUnits : List Nat → List Nat)
    (hash : List Nat → Nat) (hhash : ∀ w, hash w < map_size) (data : List Nat) :
    ∀ y ∈ gramHashes N toUnits hash data, y < map_size := by
  intro y hy
  unfold gramHashes at hy
  obtain ⟨w, _, rfl⟩ := List.mem_map.mp hy
  exact hhash w

theorem accumulateStats_lt (xs : List Nat) (t : Nat → Nat)
    (ht : ∀ h, t h < map_size) : ∀ h, accumulateStats t xs h < map_size := by
  intro h
  rw [accumulateStats_val xs t h (ht h)]
  exact Nat.mod_lt _ (by norm_num [map_size])

theorem accumulate_zero_val (xs : List Nat) :
    accumulateStats (fun _ => 0) xs = fun h => xs.count h % map_size := by
  funext h
  rw [accumulateStats_val xs (fun _ => 0) h (by norm_num [map_size])]
  rw [Nat.zero_add]

/-- Restoration: replaying the trail returns the stats table to its input state -
`calculateHaystackStatsAndMetric` leaves the table exactly as it received it. -/
theorem calcHay_restores (N : Nat) (toUnits : List Nat → List Nat)
    (hash : List Nat → Nat) (data : List Nat) (t : Nat → Nat) (d : Nat)
    (ht : ∀ h, t h < map_size) :
    (calculateHaystackStatsAndMetric N toUnits hash data t d).1 = t := by
  simp only [calculateHaystackStatsAndMetric]
  rw [restoreStats_eq_accumulate, scanFold_trail, List.nil_append]
  funext h
  have hfin : (scanFold ⟨t, d, [], 0⟩ (gramHashes N toUnits hash data)).stats h
      = (t h + (map_size - 1) * (gramHashes N toUnits hash data).count h)
          % map_size :=
    scanFold_stats _ ⟨t, d, [], 0⟩ h (ht h)
  rw [accumulateStats_val _ _ h (by rw [hfin]; exact Nat.mod_lt _ (by norm_num [map_size])),
    hfin]
  have hm : map_size = 65536 := rfl
  simp only [hm]
  have := ht h
  rw [hm] at this
  omega

theorem calcHay_cnt (N : Nat) (toUnits : List Nat → List Nat)
    (hash : List Nat → Nat) (data : List Nat) (t : Nat → Nat) (d : Nat) :
    (calculateHaystackStatsAndMetric N toUnits hash data t d).2.2
      = (gramHashes N toUnits hash data).length := by
  simp only [calculateHaystackStatsAndMetric]
  rw [scanFold_cnt]
  simp

theorem calcHay_distance (N : Nat) (toUnits : List Nat → List Nat)
    (hash : List Nat → Nat) (data : List Nat) (t : Nat → Nat) (d : Nat)
    (hd : d < sizeT) :
    (calculateHaystackStatsAndMetric N toUnits hash data t d).2.1
      = (d + (gramHashes N toUnits hash data).length
          + (sizeT - 2) * decCount t (gramHashes N toUnits hash data)) % sizeT := by
  simp only [calculateHaystackStatsAndMetric]
  exact scanFold_distance _ ⟨t, d, [], 0⟩ hd

/-- Global bound on the decrement count: at most half of `(reads + table mass)`. -/
theorem decCount_le (t : Nat → Nat) (ys : List Nat)
    (ht : ∀ h, t h < map_size) (hy : ∀ y ∈ ys, y < map_size)
    (hlen : ys.length ≤ 32768) :
    2 * decCount t ys ≤ ys.length + ∑ h ∈ Finset.range map_size, t h := by
  rw [decCount_posReads t ys ht hy, Finset.mul_sum]
  have hpt : ∀ h ∈ Finset.range map_size,
      2 * posReads (t h) (ys.count h) ≤ ys.count h + t h := by
    intro h _
    exact posReads_bound (t h) (ys.count h) (ht h)
      (Nat.le_trans (List.count_le_length h ys) hlen)
  calc ∑ h ∈ Finset.range map_size, 2 * posReads (t h) (ys.count h)
      ≤ ∑ h ∈ Finset.range map_size, (ys.count h + t h) := Finset.sum_le_sum hpt
    _ = ys.length + ∑ h ∈ Finset.range map_size, t h := by
        rw [Finset.sum_add_distrib, sum_count_eq_length ys hy]

/-- In the wrap-free regime (all needle cells `≤ 32767`, at most `32768` reads) the
distance update computes exactly the multiset symmetric difference. -/
theorem distance_value_no_wrap (xs ys : List Nat)
    (hx : ∀ y ∈ xs, y < map_size) (hy : ∀ y ∈ ys, y < map_size)
    (hxc : ∀ h, xs.count h ≤ 32767) (hyl : ys.length ≤ 32768) :
    (xs.length + ys.length + (sizeT - 2) * decCount (fun h => xs.count h) ys) % sizeT
      = symDiffCount xs ys := by
  have hm : map_size = 65536 := rfl
  have hxlt : ∀ h, xs.count h < map_size := by
    intro h
    rw [hm]
    have := hxc h
    omega
  have hD : decCount (fun h => xs.count h) ys
      = ∑ h ∈ Finset.range map_size, min (xs.count h) (ys.count h) := by
    rw [decCount_posReads (fun h => xs.count h) ys hxlt hy]
    apply Finset.sum_congr rfl
    intro h _
    exact posReads_no_wrap (xs.count h) (ys.count h) (hxc h)
      (Nat.le_trans (List.count_le_length h ys) hyl)
  have hkey : 2 * decCount (fun h => xs.count h) ys + symDiffCount xs ys
      = xs.length + ys.length := by
    rw [hD, Finset.mul_sum]
    unfold symDiffCount
    rw [← Finset.sum_add_distrib]
    have hpt : ∀ h ∈ Finset.range map_size,
        2 * min (xs.count h) (ys.count h)
          + ((xs.count h - ys.count h) + (ys.count h - xs.count h))
        = xs.count h + ys.count h := by
      intro h _
      omega
    rw [Finset.sum_congr rfl hpt, Finset.sum_add_distrib,
      sum_count_eq_length xs hx, sum_count_eq_length ys hy]
  have hxlen : xs.length ≤ 65536 * 32767 := by
    rw [← sum_count_eq_length xs hx]
    calc ∑ h ∈ Finset.range map_size, xs.count h
        ≤ ∑ _h ∈ Finset.range map_size, 32767 :=
          Finset.sum_le_sum (fun h _ => hxc h)
      _ = 65536 * 32767 := by
          rw [Finset.sum_const, Finset.card_range, hm, smul_eq_mul]
  have hsz : sizeT = 18446744073709551616 := rfl
  generalize hDD : decCount (fun h => xs.count h) ys = D at hkey ⊢
  rw [hsz]
  rw [hsz] at *
  omega

/-- Range of the final distance in the general (possibly wrapping) regime. -/
theorem distance_value_bound (t : Nat → Nat) (ys : List Nat) (d : Nat)
    (ht : ∀ h, t h < map_size) (hy : ∀ y ∈ ys, y < map_size)
    (hyl : ys.length ≤ 32768) (hsum : ∑ h ∈ Finset.range map_size, t h ≤ d)
    (hd : d + 32768 < sizeT) :
    (d + ys.length + (sizeT - 2) * decCount t ys) % sizeT ≤ d + ys.length := by
  have hbound := decCount_le t ys ht hy hyl
  have hsz : sizeT = 18446744073709551616 := rfl
  generalize hDD : decCount t ys = D at hbound ⊢
  generalize hSS : ∑ h ∈ Finset.range map_size, t h = S at hbound hsum
  rw [hsz]
  rw [hsz] at hd
  omega

/-! ### Needle-pass values and unit-stream lengths -/

theorem asciiCodePoints_length (ci : Bool) (l : List Nat) :
    (asciiCodePoints ci l).length = l.length := by
  unfold asciiCodePoints
  split <;> simp

theorem utf8CodePoints_length_le (ci : Bool) :
    ∀ (n : Nat) (l : List Nat), l.length = n → (utf8CodePoints ci l).length ≤ l.length := by
  intro n
  induction n using Nat.strong_induction_on with
  | _ n ih =>
    intro l hl
    cases l with
    | nil => simp [utf8CodePoints]
    | cons b bs =>
      rw [utf8CodePoints]
      simp only [List.length_cons] at hl
      simp only [List.length_cons]
      have hrec := ih (bs.drop (min (utf8SeqLength b) (bs.length + 1) - 1)).length
        (by simp only [List.length_drop]; omega) _ rfl
      simp only [List.length_drop] at hrec ⊢
      omega

theorem gramHashes_nil_of_short (N : Nat) (hN1 : 1 ≤ N) (hN9 : N ≤ 9)
    (toUnits : List Nat → List Nat) (hash : List Nat → Nat) (data : List Nat)
    (hshort : (toUnits data).length < N) :
    gramHashes N toUnits hash data = [] := by
  rw [gramHashes_eq N hN1 hN9]
  unfold slidingWins
  have : (toUnits data).length + 1 - N = 0 := by omega
  rw [this]
  simp

theorem needleStats_fst_lt (N : Nat) (toUnits : List Nat → List Nat)
    (hash : List Nat → Nat) (needle : List Nat) :
    ∀ h, (calculateNeedleStats N toUnits hash needle (fun _ => 0)).1 h < map_size := by
  intro h
  unfold calculateNeedleStats
  split
  · norm_num [map_size]
  · exact accumulateStats_lt _ _ (by norm_num [map_size]) h

/-- The needle pass from a zeroed table: every cell holds the needle's per-hash
n-gram count reduced `% map_size` (whatever the `len` return value does). -/
theorem needleStats_fst (N : Nat) (hN1 : 1 ≤ N) (hN9 : N ≤ 9)
    (toUnits : List Nat → List Nat) (hash : List Nat → Nat) (needle : List Nat)
    (hunits : (toUnits needle).length ≤ needle.length) :
    (calculateNeedleStats N toUnits hash needle (fun _ => 0)).1
        = (fun h => (gramHashes N toUnits hash needle).count h % map_size) := by
  unfold calculateNeedleStats
  by_cases hlen : needle.length < N
  · rw [if_pos hlen]
    have hnil : gramHashes N toUnits hash needle = [] :=
      gramHashes_nil_of_short N hN1 hN9 toUnits hash needle (by omega)
    rw [hnil]
    funext h
    simp
  · rw [if_neg hlen]
    exact accumulate_zero_val _

/-- The needle's `len` accounting does not wrap: the needle is either shorter than
`N` bytes (early return) or decodes to at least `N - 1` code points.  This holds for
every string in ASCII mode, but fails in UTF-8 mode for needles of at least `N`
bytes with fewer than `N - 1` code points. -/
def NeedleCountExact (N : Nat) (toUnits : List Nat → List Nat)
    (needle : List Nat) : Prop :=
  needle.length < N ∨ N ≤ (toUnits needle).length + 1

theorem asciiNeedleCountExact (N : Nat) (ci : Bool) (l : List Nat) :
    NeedleCountExact N (asciiCodePoints ci) l := by
  unfold NeedleCountExact
  rw [asciiCodePoints_length]
  omega

/-- When the `len` accounting does not wrap, `calculateNeedleStats` returns the true
needle n-gram count. -/
theorem needleStats_snd_exact (N : Nat) (hN1 : 1 ≤ N) (hN9 : N ≤ 9)
    (toUnits : List Nat → List Nat) (hash : List Nat → Nat) (needle : List Nat)
    (hunits : (toUnits needle).length ≤ needle.length)
    (hrep : needle.length < sizeT)
    (hex : NeedleCountExact N toUnits needle) :
    (calculateNeedleStats N toUnits hash needle (fun _ => 0)).2
      = (gramHashes N toUnits hash needle).length := by
  unfold calculateNeedleStats
  rw [length_gramHashes N hN1 hN9]
  by_cases hlen : needle.length < N
  · rw [if_pos hlen]
    omega
  · rw [if_neg hlen]
    simp only
    rcases hex with hex | hex
    · omega
    · have hsz : sizeT = 18446744073709551616 := rfl
      rw [hsz] at hrep ⊢
      omega

theorem needleStats_sum_le (N : Nat) (toUnits : List Nat → List Nat)
    (hash : List Nat → Nat) (hhash : ∀ w, hash w < map_size)
    (hN1 : 1 ≤ N) (hN9 : N ≤ 9) (needle : List Nat)
    (hunits : (toUnits needle).length ≤ needle.length)
    (hrep : needle.length < sizeT) :
    ∑ h ∈ Finset.range map_size,
        (calculateNeedleStats N toUnits hash needle (fun _ => 0)).1 h
      ≤ (calculateNeedleStats N toUnits hash needle (fun _ => 0)).2 := by
  have hsum : ∑ h ∈ Finset.range map_size,
      (calculateNeedleStats N toUnits hash needle (fun _ => 0)).1 h
      ≤ (gramHashes N toUnits hash needle).length := by
    rw [needleStats_fst N hN1 hN9 toUnits hash needle hunits]
    calc ∑ h ∈ Finset.range map_size,
          (gramHashes N toUnits hash needle).count h % map_size
        ≤ ∑ h ∈ Finset.range map_size, (gramHashes N toUnits hash needle).count h :=
          Finset.sum_le_sum (fun h _ => Nat.mod_le _ _)
      _ = (gramHashes N toUnits hash needle).length :=
          sum_count_eq_length _ (gramHashes_mem_lt N toUnits hash hhash needle)
  by_cases hex : N ≤ (toUnits needle).length + 1
  · rw [needleStats_snd_exact N hN1 hN9 toUnits hash needle hunits hrep
      (Or.inr hex)]
    exact hsum
  · -- the wrapped case: the needle has no n-grams at all, the table is zero
    have hnil : gramHashes N toUnits hash needle = [] :=
      gramHashes_nil_of_short N hN1 hN9 toUnits hash needle (by omega)
    rw [hnil] at hsum
    simp only [List.length_nil, Nat.le_zero] at hsum
    rw [hsum]
    exact Nat.zero_le _

/-- The haystack gram count is bounded by the haystack byte length (each code point
consumes at least one byte). -/
theorem gramHashes_length_le (N : Nat) (hN1 : 1 ≤ N) (hN9 : N ≤ 9)
    (toUnits : List Nat → List Nat) (hash : List Nat → Nat) (data : List Nat)
    (hunits : (toUnits data).length ≤ data.length) :
    (gramHashes N toUnits hash data).length ≤ data.length := by
  rw [length_gramHashes N hN1 hN9]
  omega

theorem ASCIIHash_lt (w : List Nat) : ASCIIHash w < map_size := by
  unfold ASCIIHash map_size
  exact Nat.mod_lt _ (by norm_num)

theorem UTF8Hash_lt (w : List Nat) : UTF8Hash w < map_size := by
  unfold UTF8Hash map_size
  exact Nat.mod_lt _ (by norm_num)

theorem asciiCodePoints_le (ci : Bool) (l : List Nat) :
    (asciiCodePoints ci l).length ≤ l.length := by
  rw [asciiCodePoints_length]

theorem utf8CodePoints_le (ci : Bool) (l : List Nat) :
    (utf8CodePoints ci l).length ≤ l.length :=
  utf8CodePoints_length_le ci l.length l rfl

theorem subSizeT_eq (a b : Nat) (hba : b ≤ a) (ha : a < sizeT) :
    subSizeT a b = a - b := by
  have hsz : sizeT = 18446744073709551616 := rfl
  rw [hsz] at ha
  unfold subSizeT
  rw [hsz]
  omega

theorem sliding_replicate (N L a : Nat) (hNL : N ≤ L) :
    slidingWins N (List.replicate L a) = List.replicate (L + 1 - N) (List.replicate N a) := by
  unfold slidingWins
  rw [List.length_replicate]
  have hpt : ∀ i ∈ List.range (L + 1 - N),
      ((List.replicate L a).drop i).take N = List.replicate N a := by
    intro i hi
    rw [List.mem_range] at hi
    rw [List.drop_replicate, List.take_replicate]
    congr 1
    omega
  rw [List.map_congr_left hpt, List.map_const', List.length_range]

theorem gram_replicate (N L a : Nat) (hash : List Nat → Nat)
    (hN1 : 1 ≤ N) (hN9 : N ≤ 9) (hNL : N ≤ L) :
    gramHashes N (asciiCodePoints false) hash (List.replicate L a)
      = List.replicate (L + 1 - N) (hash (List.replicate N a)) := by
  have hid : asciiCodePoints false (List.replicate L a) = List.replicate L a := rfl
  rw [gramHashes_eq N hN1 hN9, hid, sliding_replicate N L a hNL, List.map_replicate]

theorem needleStats_snd_lt (N : Nat) (toUnits : List Nat → List Nat)
    (hash : List Nat → Nat) (needle : List Nat) (t : Nat → Nat) :
    (calculateNeedleStats N toUnits hash needle t).2 < sizeT := by
  unfold calculateNeedleStats
  split
  · norm_num [sizeT]
  · exact Nat.mod_lt _ (by norm_num [sizeT])

/-- A scan against an all-zero table never sees an `Int16`-positive cell: a cell
read `k ≤ 32768` times runs `0, 65535, 65534, ...`, always `0` or `≥ 32768`. -/
theorem decCount_zero_table (ys : List Nat) (t : Nat → Nat) (ht0 : ∀ h, t h = 0)
    (hy : ∀ y ∈ ys, y < map_size) (hlen : ys.length ≤ 32768) :
    decCount t ys = 0 := by
  rw [decCount_posReads t ys (fun h => by rw [ht0 h]; norm_num [map_size]) hy]
  apply Finset.sum_eq_zero
  intro h _
  rw [ht0 h, posReads_no_wrap 0 _ (by norm_num)
    (le_trans (List.count_le_length _ _) hlen)]
  simp

/-! ### Concrete UTF-8 evaluations

The four bytes `[240, 159, 152, 128]` encode the single code point U+1F600.  In
UTF-8 mode with `N = 3` a needle of these bytes passes the byte-length guard
(`4 ≥ 3`) but decodes to one unit, so `len += found - N + 1` wraps below zero. -/

theorem utf8Units_abc : utf8CodePoints false [97, 98, 99] = [97, 98, 99] := by
  simp [utf8CodePoints, utf8SeqLength, utf8Pack]

theorem utf8Units_emoji :
    utf8CodePoints false [240, 159, 152, 128] = [utf8Pack [240, 159, 152, 128]] := by
  simp [utf8CodePoints, utf8SeqLength]

theorem grams_abc :
    gramHashes 3 (utf8CodePoints false) UTF8Hash [97, 98, 99]
      = [UTF8Hash [97, 98, 99]] := by
  rw [gramHashes_eq 3 (by norm_num) (by norm_num), utf8Units_abc]
  rfl

theorem grams_emoji :
    gramHashes 3 (utf8CodePoints false) UTF8Hash [240, 159, 152, 128] = [] :=
  gramHashes_nil_of_short 3 (by norm_num) (by norm_num) _ _ _
    (by rw [utf8Units_emoji]; norm_num)

/-- The wrapped needle count: `(2^64 - 3 + 1 + 1) mod 2^64 = 2^64 - 1`. -/
theorem needleStats_emoji_snd :
    (calculateNeedleStats 3 (utf8CodePoints false) UTF8Hash [240, 159, 152, 128]
        (fun _ => 0)).2 = sizeT - 1 := by
  unfold calculateNeedleStats
  rw [if_neg (by norm_num)]
  simp only [utf8Units_emoji]
  norm_num [sizeT]

/-- The wrapped needle contributes nothing to the table: it has no 3-grams. -/
theorem needleStats_emoji_fst :
    ∀ h, (calculateNeedleStats 3 (utf8CodePoints false) UTF8Hash
        [240, 159, 152, 128] (fun _ => 0)).1 h = 0 := by
  intro h
  rw [needleStats_fst 3 (by norm_num) (by norm_num) _ _ _ (utf8CodePoints_le false _)]
  rw [grams_emoji]
  simp

/-- `ngramDistanceUTF8("abc", "U+1F600")` evaluates to `0`: the scan adds one to the
wrapped distance `2^64 - 1`, which wraps to `0`. -/
theorem cc_abc_emoji :
    constant_constant 3 (utf8CodePoints false) UTF8Hash [97, 98, 99]
        [240, 159, 152, 128] = 0 := by
  simp only [constant_constant]
  rw [if_pos (by norm_num [max_string_size])]
  rw [calcHay_distance 3 (utf8CodePoints false) UTF8Hash [97, 98, 99] _ _
    (by rw [needleStats_emoji_snd]; norm_num [sizeT])]
  rw [grams_abc, needleStats_emoji_snd]
  have hdc : decCount
      (calculateNeedleStats 3 (utf8CodePoints false) UTF8Hash [240, 159, 152, 128]
        (fun _ => 0)).1 [UTF8Hash [97, 98, 99]] = 0 :=
    decCount_zero_table [UTF8Hash [97, 98, 99]] _ needleStats_emoji_fst
      (fun y hy => by
        rw [List.mem_singleton] at hy
        rw [hy]
        exact UTF8Hash_lt _)
      (by norm_num)
  rw [hdc]
  norm_num [sizeT]

/-- `ngramDistanceUTF8("U+1F600", "abc")` evaluates to `1`: the haystack has no
3-grams, so the wrapped distance `1` survives and is divided by `max(0 + 1, 1)`. -/
theorem cc_emoji_abc :
    constant_constant 3 (utf8CodePoints false) UTF8Hash [240, 159, 152, 128]
        [97, 98, 99] = 1 := by
  have hsnd : (calculateNeedleStats 3 (utf8CodePoints false) UTF8Hash [97, 98, 99]
      (fun _ => 0)).2 = 1 := by
    rw [needleStats_snd_exact 3 (by norm_num) (by norm_num) _ _ _
      (utf8CodePoints_le false _) (by norm_num [sizeT])
      (by unfold NeedleCountExact
          rw [utf8Units_abc]
          norm_num)]
    rw [grams_abc]
    rfl
  simp only [constant_constant]
  rw [if_pos (by norm_num [max_string_size])]
  rw [hsnd]
  rw [calcHay_distance 3 (utf8CodePoints false) UTF8Hash [240, 159, 152, 128] _ _
    (by norm_num [sizeT])]
  rw [calcHay_cnt, grams_emoji]
  simp only [decCount, List.length_nil]
  norm_num [sizeT]

/-! ### Claims -/

/-- The stats table `vcLoop` holds at the start of each successive row (mirrors the
row loop of `vector_constant`: in-bounds rows thread the scorer's restored table,
oversized rows skip the scorer and keep the table). -/
def vcTables (N : Nat) (toUnits : List Nat → List Nat) (hash : List Nat → Nat)
    (data : List Nat) (nss : Nat) (t : Nat → Nat) (prev : Nat) :
    List Nat → List (Nat → Nat)
  | [] => []
  | off :: offs =>
    let hsize := subSizeT (subSizeT off prev) 1
    if hsize ≤ max_string_size then
      t :: vcTables N toUnits hash data nss
        ((calculateHaystackStatsAndMetric N toUnits hash
          ((data.drop prev).take hsize) t nss).1) off offs
    else
      t :: vcTables N toUnits hash data nss t off offs

theorem vcTables_const (N : Nat) (toUnits : List Nat → List Nat)
    (hash : List Nat → Nat) (data : List Nat) (nss : Nat) :
    ∀ (offs : List Nat) (prev : Nat) (t : Nat → Nat), (∀ h, t h < map_size) →
    ∀ tb ∈ vcTables N toUnits hash data nss t prev offs, tb = t := by
  intro offs
  induction offs with
  | nil =>
    intro prev t ht tb htb
    simp [vcTables] at htb
  | cons off offs ih =>
    intro prev t ht tb htb
    simp only [vcTables] at htb
    by_cases hc : subSizeT (subSizeT off prev) 1 ≤ max_string_size
    · rw [if_pos hc] at htb
      rcases List.mem_cons.mp htb with rfl | hmem
      · rfl
      · have hrest := calcHay_restores N toUnits hash
          ((data.drop prev).take (subSizeT (subSizeT off prev) 1)) t nss ht
        rw [hrest] at hmem
        exact ih off t ht tb hmem
    · rw [if_neg hc] at htb
      rcases List.mem_cons.mp htb with rfl | hmem
      · rfl
      · exact ih off t ht tb hmem

/-- C2 : table restoration.  For every needle and haystack column, scoring any row
against the post-needle stats table hands the table back unchanged (the trail replay
reverts every decrement), and the table `vector_constant`'s row loop holds at the
start of every row - oversized rows included - is the post-needle table. -/
theorem C2_table_restoration (N : Nat) (toUnits : List Nat → List Nat)
    (hash : List Nat → Nat) (data offsets needle : List Nat) :
    (∀ (row : List Nat) (d : Nat),
      (calculateHaystackStatsAndMetric N toUnits hash row
          (calculateNeedleStats N toUnits hash needle (fun _ => 0)).1 d).1
        = (calculateNeedleStats N toUnits hash needle (fun _ => 0)).1)
    ∧ (∀ tb ∈ vcTables N toUnits hash data
          (calculateNeedleStats N toUnits hash needle (fun _ => 0)).2
          (calculateNeedleStats N toUnits hash needle (fun _ => 0)).1 0 offsets,
        tb = (calculateNeedleStats N toUnits hash needle (fun _ => 0)).1) :=
  ⟨fun row d => calcHay_restores N toUnits hash row _ d
      (needleStats_fst_lt N toUnits hash needle),
    vcTables_const N toUnits hash data _ offsets 0 _
      (needleStats_fst_lt N toUnits hash needle)⟩

/-- C8 (amended): provided the needle's `size_t len` accounting does not wrap
(`NeedleCountExact`: the needle is shorter than `N` bytes or decodes to at least
`N - 1` units - always true in ASCII mode, but violated by UTF-8 needles of at least
`N` bytes with fewer than `N - 1` code points), `calculateNeedleStats` returns
`max(0, len_in_units - N + 1)` (truncated `Nat` subtraction); the sum of all table
entries equals the returned count provided additionally every per-hash needle n-gram
count stays below `65536` (the `UInt16` cells wrap otherwise); and a needle shorter
than `N` bytes returns `0` leaving any table untouched. -/
theorem C8_needle_stats (N : Nat) (hN1 : 1 ≤ N) (hN9 : N ≤ 9)
    (toUnits : List Nat → List Nat) (hash : List Nat → Nat)
    (hhash : ∀ w, hash w < map_size)
    (hunits : (toUnits needle).length ≤ needle.length)
    (hrep : needle.length < sizeT)
    (hex : NeedleCountExact N toUnits needle) :
    (calculateNeedleStats N toUnits hash needle (fun _ => 0)).2
        = (toUnits needle).length + 1 - N
      ∧ ((∀ h, (gramHashes N toUnits hash needle).count h < map_size) →
          ∑ h ∈ Finset.range map_size,
              (calculateNeedleStats N toUnits hash needle (fun _ => 0)).1 h
            = (calculateNeedleStats N toUnits hash needle (fun _ => 0)).2)
      ∧ (∀ t : Nat → Nat, needle.length < N →
          calculateNeedleStats N toUnits hash needle t = (t, 0)) := by
  have hfst := needleStats_fst N hN1 hN9 toUnits hash needle hunits
  have hsnd := needleStats_snd_exact N hN1 hN9 toUnits hash needle hunits hrep hex
  refine ⟨?_, ?_, ?_⟩
  · rw [hsnd, length_gramHashes N hN1 hN9]
  · intro hnw
    rw [hfst, hsnd]
    have hpt : ∀ h ∈ Finset.range map_size,
        (gramHashes N toUnits hash needle).count h % map_size
          = (gramHashes N toUnits hash needle).count h := by
      intro h _
      exact Nat.mod_eq_of_lt (hnw h)
    rw [Finset.sum_congr rfl hpt]
    exact sum_count_eq_length _ (gramHashes_mem_lt N toUnits hash hhash needle)
  · intro t hlen
    unfold calculateNeedleStats
    rw [if_pos hlen]

theorem C8_needle_stats_witness :
    (calculateNeedleStats 4 (asciiCodePoints false) ASCIIHash [97, 98, 99, 100]
        (fun _ => 0)).2
      = (asciiCodePoints false [97, 98, 99, 100]).length + 1 - 4 :=
  (C8_needle_stats 4 (by norm_num) (by norm_num) (asciiCodePoints false) ASCIIHash
    ASCIIHash_lt (asciiCodePoints_le false [97, 98, 99, 100])
    (by norm_num [sizeT]) (asciiNeedleCountExact 4 false _)).1

/-- C8, counterexamples to the unamended claim.  Sum postcondition: a needle of
65539 equal bytes has 65536 n-grams in a single hash cell; the `UInt16` cell wraps
to `0`, so the table sums to `0` while the returned count is `65536`.  Count
formula: in UTF-8 mode a four-byte needle encoding one code point makes
`len += found - N + 1` wrap below zero, so the returned count is `2^64 - 1` while
`max(0, len_in_units - N + 1) = 0`. -/
theorem C8_sum_counterexample :
    ¬ (∑ h ∈ Finset.range map_size,
          (calculateNeedleStats 4 (asciiCodePoints false) ASCIIHash
            (List.replicate 65539 97) (fun _ => 0)).1 h
        = (calculateNeedleStats 4 (asciiCodePoints false) ASCIIHash
            (List.replicate 65539 97) (fun _ => 0)).2)
    ∧ (calculateNeedleStats 3 (utf8CodePoints false) UTF8Hash [240, 159, 152, 128]
          (fun _ => 0)).2
        ≠ (utf8CodePoints false [240, 159, 152, 128]).length + 1 - 3 := by
  constructor
  · have hfst := needleStats_fst 4 (by norm_num) (by norm_num)
      (asciiCodePoints false) ASCIIHash (List.replicate 65539 97)
      (asciiCodePoints_le false _)
    have hsnd := needleStats_snd_exact 4 (by norm_num) (by norm_num)
      (asciiCodePoints false) ASCIIHash (List.replicate 65539 97)
      (asciiCodePoints_le false _)
      (by rw [List.length_replicate]; norm_num [sizeT])
      (asciiNeedleCountExact 4 false _)
    have hgram := gram_replicate 4 65539 97 ASCIIHash (by norm_num) (by norm_num)
      (by norm_num)
    rw [hfst, hsnd, hgram]
    have hlen : (List.replicate (65539 + 1 - 4)
        (ASCIIHash (List.replicate 4 97))).length = 65536 := by
      rw [List.length_replicate]
    rw [hlen]
    have hzero : ∑ h ∈ Finset.range map_size,
        (List.replicate (65539 + 1 - 4) (ASCIIHash (List.replicate 4 97))).count h
          % map_size = 0 := by
      apply Finset.sum_eq_zero
      intro h _
      rw [List.count_replicate]
      by_cases hc : (ASCIIHash (List.replicate 4 97) == h) = true
      · rw [if_pos hc]
        rfl
      · rw [if_neg hc]
        rfl
    rw [hzero]
    norm_num
  · rw [needleStats_emoji_snd, utf8Units_emoji]
    norm_num [sizeT]

theorem length_le_of_counts (xs : List Nat) (hx : ∀ y ∈ xs, y < map_size)
    (hxc : ∀ h, xs.count h ≤ 32767) : xs.length ≤ 65536 * 32767 := by
  rw [← sum_count_eq_length xs hx]
  calc ∑ h ∈ Finset.range map_size, xs.count h
      ≤ ∑ _h ∈ Finset.range map_size, 32767 :=
        Finset.sum_le_sum (fun h _ => hxc h)
    _ = 65536 * 32767 := by
        rw [Finset.sum_const, Finset.card_range, smul_eq_mul,
          show map_size = 65536 from rfl]

/-- C1 (amended): for every needle whose per-hash n-gram counts all stay `≤ 32767`
and every haystack of byte length at most `max_string_size`, running
`calculateHaystackStatsAndMetric` with `distance` initialised to the needle's n-gram
count and the stats table holding the needle's per-hash n-gram counts ends with
`distance` equal to the size of the multiset symmetric difference of the needle's
and the haystack's multisets of 16-bit n-gram hashes. -/
theorem C1_distance_symdiff (N : Nat) (hN1 : 1 ≤ N) (hN9 : N ≤ 9)
    (toUnits : List Nat → List Nat) (hash : List Nat → Nat)
    (hhash : ∀ w, hash w < map_size)
    (hunits : ∀ l, (toUnits l).length ≤ l.length)
    (needle data : List Nat)
    (hdata : data.length ≤ max_string_size)
    (hneedle : ∀ h, (gramHashes N toUnits hash needle).count h ≤ 32767) :
    (calculateHaystackStatsAndMetric N toUnits hash data
        (fun h => (gramHashes N toUnits hash needle).count h)
        (gramHashes N toUnits hash needle).length).2.1
      = symDiffCount (gramHashes N toUnits hash needle)
          (gramHashes N toUnits hash data) := by
  have hx := gramHashes_mem_lt N toUnits hash hhash needle
  have hy := gramHashes_mem_lt N toUnits hash hhash data
  have hyl : (gramHashes N toUnits hash data).length ≤ 32768 := by
    have h1 := gramHashes_length_le N hN1 hN9 toUnits hash data (hunits data)
    have h2 : max_string_size = 32768 := rfl
    omega
  have hxlen := length_le_of_counts _ hx hneedle
  rw [calcHay_distance N toUnits hash data _ _
    (by rw [show sizeT = 18446744073709551616 from rfl]; omega)]
  exact distance_value_no_wrap _ _ hx hy hneedle hyl

theorem C1_distance_symdiff_witness :
    (calculateHaystackStatsAndMetric 4 (asciiCodePoints false) ASCIIHash
        [97, 98, 99, 100]
        (fun h => (gramHashes 4 (asciiCodePoints false) ASCIIHash
          [97, 98, 99, 100]).count h)
        (gramHashes 4 (asciiCodePoints false) ASCIIHash [97, 98, 99, 100]).length).2.1
      = symDiffCount
          (gramHashes 4 (asciiCodePoints false) ASCIIHash [97, 98, 99, 100])
          (gramHashes 4 (asciiCodePoints false) ASCIIHash [97, 98, 99, 100]) :=
  C1_distance_symdiff 4 (by norm_num) (by norm_num) (asciiCodePoints false) ASCIIHash
    ASCIIHash_lt (asciiCodePoints_le false) [97, 98, 99, 100] [97, 98, 99, 100]
    (by norm_num [max_string_size])
    (fun h => le_trans (List.count_le_length _ _)
      (by rw [length_gramHashes 4 (by norm_num) (by norm_num)]
          norm_num [asciiCodePoints]))

/-- C1, counterexample to the unamended claim: a needle of 32771 equal bytes puts
32768 in one stats cell, whose `Int16` view is negative; the single matching haystack
n-gram then increments `distance` to 32769 although the symmetric difference is
32767. -/
theorem C1_counterexample :
    ¬ ((calculateHaystackStatsAndMetric 4 (asciiCodePoints false) ASCIIHash
          (List.replicate 4 97)
          (fun h => (gramHashes 4 (asciiCodePoints false) ASCIIHash
            (List.replicate 32771 97)).count h)
          (gramHashes 4 (asciiCodePoints false) ASCIIHash
            (List.replicate 32771 97)).length).2.1
        = symDiffCount
            (gramHashes 4 (asciiCodePoints false) ASCIIHash (List.replicate 32771 97))
            (gramHashes 4 (asciiCodePoints false) ASCIIHash (List.replicate 4 97))) := by
  have hgramN := gram_replicate 4 32771 97 ASCIIHash (by norm_num) (by norm_num)
    (by norm_num)
  have hgramD := gram_replicate 4 4 97 ASCIIHash (by norm_num) (by norm_num)
    (by norm_num)
  have h32768 : (32771 : Nat) + 1 - 4 = 32768 := by norm_num
  have h1 : (4 : Nat) + 1 - 4 = 1 := by norm_num
  rw [hgramN, hgramD, h32768, h1]
  set h0 := ASCIIHash (List.replicate 4 97) with hh0
  have hcount : ∀ n : Nat, (List.replicate n h0).count h0 = n := by
    intro n
    rw [List.count_replicate]
    simp
  have hdist : (calculateHaystackStatsAndMetric 4 (asciiCodePoints false) ASCIIHash
      (List.replicate 4 97)
      (fun h => (List.replicate 32768 h0).count h)
      (List.replicate 32768 h0).length).2.1 = 32769 := by
    rw [calcHay_distance 4 (asciiCodePoints false) ASCIIHash (List.replicate 4 97) _ _
      (by rw [List.length_replicate, show sizeT = 18446744073709551616 from rfl]
          norm_num),
      hgramD, h1, List.length_replicate]
    have hdec : decCount (fun h => (List.replicate 32768 h0).count h)
        (List.replicate 1 h0) = 0 := by
      have hrepl : List.replicate 1 h0 = [h0] := rfl
      rw [hrepl]
      simp only [decCount]
      simp only [hcount 32768]
      rw [if_neg (by unfold int16Pos; omega)]
    rw [hdec, Nat.mul_zero, Nat.add_zero, List.length_replicate]
    rw [show sizeT = 18446744073709551616 from rfl]
  rw [hdist]
  have hsym : symDiffCount (List.replicate 32768 h0) (List.replicate 1 h0)
      = 32767 := by
    unfold symDiffCount
    rw [Finset.sum_eq_single_of_mem h0 (Finset.mem_range.mpr (ASCIIHash_lt _))]
    · rw [hcount 32768, hcount 1]
    · intro b _ hb
      have hzero : ∀ n : Nat, (List.replicate n h0).count b = 0 := by
        intro n
        rw [List.count_replicate]
        rw [if_neg (by simp only [beq_iff_eq]; exact fun hc => hb hc.symm)]
      rw [hzero, hzero]
      rfl
  rw [hsym]
  norm_num

theorem vcLoop_oversize (N : Nat) (toUnits : List Nat → List Nat)
    (hash : List Nat → Nat) (data : List Nat) (nss : Nat) :
    ∀ (offs : List Nat) (prev : Nat) (t : Nat → Nat) (i : Nat), i < offs.length →
    max_string_size < subSizeT (subSizeT (offs.getD i 0) ((prev :: offs).getD i 0)) 1 →
    (vcLoop N toUnits hash data nss t prev offs).getD i 0 = 1 := by
  intro offs
  induction offs with
  | nil =>
    intro prev t i hi
    simp at hi
  | cons off offs ih =>
    intro prev t i hi hover
    match i with
    | 0 =>
      simp only [List.getD_cons_zero] at hover
      simp only [vcLoop]
      rw [if_neg (by omega)]
      simp
    | i + 1 =>
      simp only [List.getD_cons_succ] at hover
      simp only [vcLoop]
      split
      · simp only [List.getD_cons_succ]
        exact ih off _ i (by simpa using hi) hover
      · simp only [List.getD_cons_succ]
        exact ih off _ i (by simpa using hi) hover

/-- C5 : oversize cutoff.  A haystack longer than `max_string_size` (32768) bytes
forces the result to exactly `1.0` regardless of the needle, in `constant_constant`
as well as in any `vector_constant` row whose `size_t` length
`offsets[i] - prev_offset - 1` exceeds the bound; a haystack of length exactly
`32768` takes the normal scoring path. -/
theorem C5_oversize_cutoff (N : Nat) (toUnits : List Nat → List Nat)
    (hash : List Nat → Nat) (needle data offsets : List Nat) :
    (max_string_size < data.length →
      constant_constant N toUnits hash data needle = 1)
    ∧ (data.length = max_string_size →
        constant_constant N toUnits hash data needle
          = ((calculateHaystackStatsAndMetric N toUnits hash data
                (calculateNeedleStats N toUnits hash needle (fun _ => 0)).1
                (calculateNeedleStats N toUnits hash needle (fun _ => 0)).2).2.1 : ℚ)
            / ((max (((calculateHaystackStatsAndMetric N toUnits hash data
                  (calculateNeedleStats N toUnits hash needle (fun _ => 0)).1
                  (calculateNeedleStats N toUnits hash needle (fun _ => 0)).2).2.2
                + (calculateNeedleStats N toUnits hash needle (fun _ => 0)).2)
                % sizeT) 1 : Nat) : ℚ))
    ∧ (∀ i, i < offsets.length →
        max_string_size
            < subSizeT (subSizeT (offsets.getD i 0) ((0 :: offsets).getD i 0)) 1 →
        (vector_constant N toUnits hash data offsets needle).getD i 0 = 1) := by
  refine ⟨?_, ?_, ?_⟩
  · intro hover
    simp only [constant_constant]
    rw [if_neg (by omega)]
  · intro heq
    simp only [constant_constant]
    rw [if_pos (by omega)]
  · intro i hi hover
    simp only [vector_constant]
    exact vcLoop_oversize N toUnits hash data _ offsets 0 _ i hi hover

theorem C5_oversize_cutoff_witness :
    constant_constant 4 (asciiCodePoints false) ASCIIHash
      (List.replicate 32769 97) [97, 98] = 1 :=
  (C5_oversize_cutoff 4 (asciiCodePoints false) ASCIIHash [97, 98]
    (List.replicate 32769 97) []).1
    (by rw [List.length_replicate]; norm_num [max_string_size])

/-- C10 : the fast path depends only on the haystack.  For every needle - with no
constraint whatsoever on its length - `constant_constant` on an in-bounds haystack
scores by the normal formula with the whole needle accumulated into the table, and
`vector_constant` hands the full needle accumulation and the needle-pass count value
to its row loop. -/
theorem C10_no_needle_cutoff (N : Nat) (hN1 : 1 ≤ N) (hN9 : N ≤ 9)
    (toUnits : List Nat → List Nat) (hash : List Nat → Nat)
    (hunits : ∀ l, (toUnits l).length ≤ l.length)
    (needle data offsets : List Nat) (hdata : data.length ≤ max_string_size) :
    constant_constant N toUnits hash data needle
        = ((calculateHaystackStatsAndMetric N toUnits hash data
              (accumulateStats (fun _ => 0) (gramHashes N toUnits hash needle))
              (calculateNeedleStats N toUnits hash needle (fun _ => 0)).2).2.1 : ℚ)
          / ((max (((calculateHaystackStatsAndMetric N toUnits hash data
                (accumulateStats (fun _ => 0) (gramHashes N toUnits hash needle))
                (calculateNeedleStats N toUnits hash needle (fun _ => 0)).2).2.2
              + (calculateNeedleStats N toUnits hash needle (fun _ => 0)).2)
              % sizeT) 1 : Nat) : ℚ)
      ∧ vector_constant N toUnits hash data offsets needle
        = vcLoop N toUnits hash data
            (calculateNeedleStats N toUnits hash needle (fun _ => 0)).2
            (accumulateStats (fun _ => 0) (gramHashes N toUnits hash needle))
            0 offsets := by
  have hacc : (calculateNeedleStats N toUnits hash needle (fun _ => 0)).1
      = accumulateStats (fun _ => 0) (gramHashes N toUnits hash needle) := by
    rw [needleStats_fst N hN1 hN9 toUnits hash needle (hunits needle),
      accumulate_zero_val]
  constructor
  · simp only [constant_constant]
    rw [if_pos hdata, hacc]
  · simp only [vector_constant]
    rw [hacc]

theorem C10_no_needle_cutoff_witness :
    constant_constant 4 (asciiCodePoints false) ASCIIHash [97, 98, 99, 100]
        (List.replicate 32771 97)
      = ((calculateHaystackStatsAndMetric 4 (asciiCodePoints false) ASCIIHash
            [97, 98, 99, 100]
            (accumulateStats (fun _ => 0) (gramHashes 4 (asciiCodePoints false)
              ASCIIHash (List.replicate 32771 97)))
            (calculateNeedleStats 4 (asciiCodePoints false) ASCIIHash
              (List.replicate 32771 97) (fun _ => 0)).2).2.1 : ℚ)
        / ((max (((calculateHaystackStatsAndMetric 4 (asciiCodePoints false) ASCIIHash
              [97, 98, 99, 100]
              (accumulateStats (fun _ => 0) (gramHashes 4 (asciiCodePoints false)
                ASCIIHash (List.replicate 32771 97)))
              (calculateNeedleStats 4 (asciiCodePoints false) ASCIIHash
                (List.replicate 32771 97) (fun _ => 0)).2).2.2
            + (calculateNeedleStats 4 (asciiCodePoints false) ASCIIHash
                (List.replicate 32771 97) (fun _ => 0)).2)
            % sizeT) 1 : Nat) : ℚ) :=
  (C10_no_needle_cutoff 4 (by norm_num) (by norm_num) (asciiCodePoints false)
    ASCIIHash (asciiCodePoints_le false) (List.replicate 32771 97) [97, 98, 99, 100]
    [] (by norm_num [max_string_size])).1

theorem C2_table_restoration_witness :
    (calculateHaystackStatsAndMetric 4 (asciiCodePoints false) ASCIIHash
        [97, 98, 99, 100, 101]
        (calculateNeedleStats 4 (asciiCodePoints false) ASCIIHash [98, 99, 100, 101]
          (fun _ => 0)).1 7).1
      = (calculateNeedleStats 4 (asciiCodePoints false) ASCIIHash [98, 99, 100, 101]
          (fun _ => 0)).1 :=
  (C2_table_restoration 4 (asciiCodePoints false) ASCIIHash [] []
    [98, 99, 100, 101]).1 [97, 98, 99, 100, 101] 7

theorem vcLoop_row_cc (N : Nat) (toUnits : List Nat → List Nat)
    (hash : List Nat → Nat) (data needle : List Nat) :
    ∀ (offs : List Nat) (prev : Nat) (i : Nat), i < offs.length →
    List.Chain (· < ·) prev offs → (∀ x ∈ offs, x ≤ data.length) →
    data.length < sizeT →
    (vcLoop N toUnits hash data
        (calculateNeedleStats N toUnits hash needle (fun _ => 0)).2
        (calculateNeedleStats N toUnits hash needle (fun _ => 0)).1 prev offs).getD i 0
      = constant_constant N toUnits hash
          ((data.drop ((prev :: offs).getD i 0)).take
            (offs.getD i 0 - (prev :: offs).getD i 0 - 1)) needle := by
  intro offs
  induction offs with
  | nil =>
    intro prev i hi
    simp at hi
  | cons off offs ih =>
    intro prev i hi hchain hbound hdl
    obtain ⟨hpo, hchain2⟩ := List.chain_cons.mp hchain
    have hoff : off ≤ data.length := hbound off (List.mem_cons_self _ _)
    have hsub : subSizeT (subSizeT off prev) 1 = off - prev - 1 := by
      rw [subSizeT_eq off prev (Nat.le_of_lt hpo) (by omega),
        subSizeT_eq (off - prev) 1 (by omega) (by omega)]
    have hslice : ((data.drop prev).take (off - prev - 1)).length
        = off - prev - 1 := by
      simp only [List.length_take, List.length_drop]
      omega
    match i with
    | 0 =>
      simp only [List.getD_cons_zero, vcLoop, hsub]
      by_cases hover : off - prev - 1 ≤ max_string_size
      · rw [if_pos hover]
        simp only [List.getD_cons_zero]
        simp only [constant_constant]
        rw [if_pos (by rw [hslice]; exact hover)]
      · rw [if_neg hover]
        simp only [List.getD_cons_zero]
        simp only [constant_constant]
        rw [if_neg (by rw [hslice]; exact hover)]
    | i + 1 =>
      simp only [List.getD_cons_succ, vcLoop, hsub]
      have hrest := calcHay_restores N toUnits hash
        ((data.drop prev).take (off - prev - 1))
        (calculateNeedleStats N toUnits hash needle (fun _ => 0)).1
        (calculateNeedleStats N toUnits hash needle (fun _ => 0)).2
        (needleStats_fst_lt N toUnits hash needle)
      split
      · simp only [List.getD_cons_succ]
        rw [hrest]
        exact ih off i (by simpa using hi) hchain2
          (fun x hx => hbound x (List.mem_cons_of_mem _ hx)) hdl
      · simp only [List.getD_cons_succ]
        exact ih off i (by simpa using hi) hchain2
          (fun x hx => hbound x (List.mem_cons_of_mem _ hx)) hdl

/-- C3 : independence from batching.  For a valid offsets column (strictly
increasing, within the byte buffer), the result `vector_constant` produces for row
`i` - the byte range of length `offsets[i] - prev_offset - 1` starting at
`prev_offset` - equals `constant_constant` on that row alone, whatever the other
rows contain. -/
theorem C3_batching_independence (N : Nat) (toUnits : List Nat → List Nat)
    (hash : List Nat → Nat) (data offsets needle : List Nat)
    (hchain : List.Chain (· < ·) 0 offsets)
    (hbound : ∀ x ∈ offsets, x ≤ data.length)
    (hdl : data.length < sizeT)
    (i : Nat) (hi : i < offsets.length) :
    (vector_constant N toUnits hash data offsets needle).getD i 0
      = constant_constant N toUnits hash
          ((data.drop ((0 :: offsets).getD i 0)).take
            (offsets.getD i 0 - (0 :: offsets).getD i 0 - 1)) needle := by
  simp only [vector_constant]
  exact vcLoop_row_cc N toUnits hash data needle offsets 0 i hi hchain hbound hdl

theorem C3_batching_independence_witness :
    (vector_constant 4 (asciiCodePoints false) ASCIIHash [97, 98] [2] [97]).getD 0 0
      = constant_constant 4 (asciiCodePoints false) ASCIIHash
          (([97, 98].drop ((0 :: [2] : List Nat).getD 0 0)).take
            (([2] : List Nat).getD 0 0 - (0 :: [2] : List Nat).getD 0 0 - 1)) [97] :=
  C3_batching_independence 4 (asciiCodePoints false) ASCIIHash [97, 98] [2] [97]
    (List.Chain.cons (by norm_num) List.Chain.nil)
    (by intro x hx; simp at hx ⊢; omega)
    (by norm_num [sizeT]) 0 (by norm_num)

/-- Closed form of `constant_constant` for in-bounds inputs: the symmetric
difference of the hash multisets over `max(total n-gram count, 1)`. -/
theorem cc_value (N : Nat) (hN2 : 2 ≤ N) (hN9 : N ≤ 9)
    (toUnits : List Nat → List Nat) (hash : List Nat → Nat)
    (hhash : ∀ w, hash w < map_size)
    (hunits : ∀ l, (toUnits l).length ≤ l.length)
    (data needle : List Nat)
    (hdata : data.length ≤ max_string_size)
    (hneedle : needle.length ≤ max_string_size)
    (hexn : NeedleCountExact N toUnits needle) :
    constant_constant N toUnits hash data needle
      = ((symDiffCount (gramHashes N toUnits hash needle)
            (gramHashes N toUnits hash data) : Nat) : ℚ)
        / ((max ((gramHashes N toUnits hash data).length
              + (gramHashes N toUnits hash needle).length) 1 : Nat) : ℚ) := by
  have hms : max_string_size = 32768 := rfl
  have hcounts : ∀ h, (gramHashes N toUnits hash needle).count h ≤ 32767 := by
    intro h
    have h1 := List.count_le_length h (gramHashes N toUnits hash needle)
    have h2 := length_gramHashes N (by omega) hN9 toUnits hash needle
    have h3 := hunits needle
    omega
  have hrepn : needle.length < sizeT := by
    rw [show sizeT = 18446744073709551616 from rfl]
    rw [hms] at hneedle
    omega
  have hfst := needleStats_fst N (by omega) hN9 toUnits hash needle (hunits needle)
  have hsnd := needleStats_snd_exact N (by omega) hN9 toUnits hash needle
    (hunits needle) hrepn hexn
  have hfst2 : (calculateNeedleStats N toUnits hash needle (fun _ => 0)).1
      = fun h => (gramHashes N toUnits hash needle).count h := by
    rw [hfst]
    funext h
    exact Nat.mod_eq_of_lt (by
      have := hcounts h
      rw [show map_size = 65536 from rfl]
      omega)
  have hx := gramHashes_mem_lt N toUnits hash hhash needle
  have hy := gramHashes_mem_lt N toUnits hash hhash data
  have hyl : (gramHashes N toUnits hash data).length ≤ 32768 := by
    have h1 := gramHashes_length_le N (by omega) hN9 toUnits hash data (hunits data)
    omega
  have hxlen := length_le_of_counts _ hx hcounts
  simp only [constant_constant]
  rw [if_pos hdata, hfst2, hsnd]
  rw [calcHay_distance N toUnits hash data _ _
    (by rw [show sizeT = 18446744073709551616 from rfl]; omega)]
  rw [distance_value_no_wrap _ _ hx hy hcounts hyl]
  rw [calcHay_cnt]
  have hmod : ((gramHashes N toUnits hash data).length
      + (gramHashes N toUnits hash needle).length) % sizeT
      = (gramHashes N toUnits hash data).length
        + (gramHashes N toUnits hash needle).length :=
    Nat.mod_eq_of_lt (by
      rw [show sizeT = 18446744073709551616 from rfl]
      omega)
  rw [hmod]

theorem symDiffCount_nil_right (xs : List Nat) (hx : ∀ y ∈ xs, y < map_size) :
    symDiffCount xs [] = xs.length := by
  unfold symDiffCount
  have hpt : ∀ h ∈ Finset.range map_size,
      (xs.count h - ([] : List Nat).count h)
        + (([] : List Nat).count h - xs.count h) = xs.count h := by
    intro h _
    simp
  rw [Finset.sum_congr rfl hpt]
  exact sum_count_eq_length xs hx

/-- Symmetry of `constant_constant` in the non-wrapping regime: when both strings
are within `max_string_size` and neither makes the needle-side `len` accounting
wrap, swapping the roles gives the same rational result (always applicable in ASCII
mode). -/
theorem symmetry_exact (N : Nat) (hN2 : 2 ≤ N) (hN9 : N ≤ 9)
    (toUnits : List Nat → List Nat) (hash : List Nat → Nat)
    (hhash : ∀ w, hash w < map_size)
    (hunits : ∀ l, (toUnits l).length ≤ l.length)
    (A B : List Nat)
    (hA : A.length ≤ max_string_size) (hB : B.length ≤ max_string_size)
    (hexA : NeedleCountExact N toUnits A) (hexB : NeedleCountExact N toUnits B) :
    constant_constant N toUnits hash A B = constant_constant N toUnits hash B A := by
  rw [cc_value N hN2 hN9 toUnits hash hhash hunits A B hA hB hexB,
    cc_value N hN2 hN9 toUnits hash hhash hunits B A hB hA hexA,
    symDiffCount_comm, Nat.add_comm]

/-- C6 : refuted on the code - `constant_constant` is not symmetric.  In the UTF-8
instantiation (`ngramDistanceUTF8`, `N = 3`), with `A` = "abc" and `B` the single
code point U+1F600 (bytes `240 159 152 128`; both strings far below
`max_string_size`), the needle-side `size_t len` accounting wraps below zero, and
the code returns `distance(A, B) = 0` but `distance(B, A) = 1`. -/
theorem C6_asymmetry_eval :
    ngramDistanceUTF8 [97, 98, 99] [240, 159, 152, 128] = 0
      ∧ ngramDistanceUTF8 [240, 159, 152, 128] [97, 98, 99] = 1
      ∧ ngramDistanceUTF8 [97, 98, 99] [240, 159, 152, 128]
          ≠ ngramDistanceUTF8 [240, 159, 152, 128] [97, 98, 99] := by
  have h1 : ngramDistanceUTF8 [97, 98, 99] [240, 159, 152, 128] = 0 := cc_abc_emoji
  have h2 : ngramDistanceUTF8 [240, 159, 152, 128] [97, 98, 99] = 1 := cc_emoji_abc
  refine ⟨h1, h2, ?_⟩
  rw [h1, h2]
  norm_num

/-- Short-input behaviour in the non-wrapping regime: a side shorter than `N` units
contributes zero n-grams; when exactly one side has n-grams the result is `1.0`
(that side's count divided by itself); when both sides have none, the `max(·, 1)`
divisor yields `0.0`. -/
theorem short_inputs_exact (N : Nat) (hN2 : 2 ≤ N) (hN9 : N ≤ 9)
    (toUnits : List Nat → List Nat) (hash : List Nat → Nat)
    (hhash : ∀ w, hash w < map_size)
    (hunits : ∀ l, (toUnits l).length ≤ l.length)
    (needle data : List Nat)
    (hdata : data.length ≤ max_string_size)
    (hneedle : needle.length ≤ max_string_size)
    (hexn : NeedleCountExact N toUnits needle) :
    ((toUnits needle).length < N → gramHashes N toUnits hash needle = [])
    ∧ ((toUnits data).length < N → gramHashes N toUnits hash data = [])
    ∧ (gramHashes N toUnits hash needle ≠ [] → gramHashes N toUnits hash data = [] →
        constant_constant N toUnits hash data needle = 1)
    ∧ (gramHashes N toUnits hash needle = [] → gramHashes N toUnits hash data ≠ [] →
        constant_constant N toUnits hash data needle = 1)
    ∧ (gramHashes N toUnits hash needle = [] → gramHashes N toUnits hash data = [] →
        constant_constant N toUnits hash data needle = 0) := by
  have hccv := cc_value N hN2 hN9 toUnits hash hhash hunits data needle hdata
    hneedle hexn
  refine ⟨gramHashes_nil_of_short N (by omega) hN9 toUnits hash needle,
    gramHashes_nil_of_short N (by omega) hN9 toUnits hash data, ?_, ?_, ?_⟩
  · intro hng hdg
    rw [hccv, hdg]
    rw [symDiffCount_nil_right _ (gramHashes_mem_lt N toUnits hash hhash needle)]
    have hpos : 0 < (gramHashes N toUnits hash needle).length :=
      List.length_pos.mpr hng
    rw [List.length_nil, Nat.zero_add, max_eq_left hpos]
    exact div_self (Nat.cast_ne_zero.mpr (by omega))
  · intro hng hdg
    rw [hccv, hng]
    rw [symDiffCount_comm,
      symDiffCount_nil_right _ (gramHashes_mem_lt N toUnits hash hhash data)]
    have hpos : 0 < (gramHashes N toUnits hash data).length :=
      List.length_pos.mpr hdg
    rw [List.length_nil, Nat.add_zero, max_eq_left hpos]
    exact div_self (Nat.cast_ne_zero.mpr (by omega))
  · intro hng hdg
    rw [hccv, hng, hdg]
    norm_num [symDiffCount]

/-- C9 : refuted on the code.  In the UTF-8 instantiation the four-byte
single-code-point needle is shorter than `N = 3` units and contributes zero
n-grams while the haystack "abc" has one, so the claim predicts `1.0`; the code
returns `0.0`, because the wrapped needle count `2^64 - 1` feeds both the initial
distance and the divisor. -/
theorem C9_short_input_eval :
    gramHashes 3 (utf8CodePoints false) UTF8Hash [240, 159, 152, 128] = []
      ∧ gramHashes 3 (utf8CodePoints false) UTF8Hash [97, 98, 99] ≠ []
      ∧ ngramDistanceUTF8 [97, 98, 99] [240, 159, 152, 128] ≠ 1 := by
  refine ⟨grams_emoji, ?_, ?_⟩
  · rw [grams_abc]
    simp
  · have h1 : ngramDistanceUTF8 [97, 98, 99] [240, 159, 152, 128] = 0 := cc_abc_emoji
    rw [h1]
    norm_num

/-- One in-bounds scoring pass stays within `[0, 1]` and its final distance never
exceeds `nss + haystack_ngram_count`, for any table whose mass is at most the
initial distance. -/
theorem score_range (N : Nat) (hN1 : 1 ≤ N) (hN9 : N ≤ 9)
    (toUnits : List Nat → List Nat) (hash : List Nat → Nat)
    (hhash : ∀ w, hash w < map_size)
    (hunits : ∀ l, (toUnits l).length ≤ l.length)
    (row : List Nat) (t : Nat → Nat) (nss : Nat)
    (ht : ∀ h, t h < map_size)
    (hsum : ∑ h ∈ Finset.range map_size, t h ≤ nss)
    (hnss : nss + 32768 < sizeT)
    (hrow : row.length ≤ max_string_size) :
    (0 : ℚ) ≤ ((calculateHaystackStatsAndMetric N toUnits hash row t nss).2.1 : ℚ)
        / ((max (((calculateHaystackStatsAndMetric N toUnits hash row t nss).2.2
            + nss) % sizeT) 1 : Nat) : ℚ)
    ∧ ((calculateHaystackStatsAndMetric N toUnits hash row t nss).2.1 : ℚ)
        / ((max (((calculateHaystackStatsAndMetric N toUnits hash row t nss).2.2
            + nss) % sizeT) 1 : Nat) : ℚ) ≤ 1
    ∧ (calculateHaystackStatsAndMetric N toUnits hash row t nss).2.1
        ≤ nss + (calculateHaystackStatsAndMetric N toUnits hash row t nss).2.2 := by
  have hms : max_string_size = 32768 := rfl
  have hyl : (gramHashes N toUnits hash row).length ≤ 32768 := by
    have := gramHashes_length_le N hN1 hN9 toUnits hash row (hunits row)
    omega
  have hy := gramHashes_mem_lt N toUnits hash hhash row
  have hnum : (calculateHaystackStatsAndMetric N toUnits hash row t nss).2.1
      ≤ nss + (gramHashes N toUnits hash row).length := by
    rw [calcHay_distance N toUnits hash row t nss (by
      rw [show sizeT = 18446744073709551616 from rfl] at hnss ⊢
      omega)]
    exact distance_value_bound t _ nss ht hy hyl hsum hnss
  have hcnt := calcHay_cnt N toUnits hash row t nss
  have hdiv : ((calculateHaystackStatsAndMetric N toUnits hash row t nss).2.2
      + nss) % sizeT
      = (calculateHaystackStatsAndMetric N toUnits hash row t nss).2.2 + nss :=
    Nat.mod_eq_of_lt (by
      rw [hcnt]
      rw [show sizeT = 18446744073709551616 from rfl] at hnss ⊢
      omega)
  rw [hdiv]
  refine ⟨?_, ?_, ?_⟩
  · apply div_nonneg (by positivity) (by positivity)
  · apply div_le_one_of_le₀
    · have hle : (calculateHaystackStatsAndMetric N toUnits hash row t nss).2.1
          ≤ max ((calculateHaystackStatsAndMetric N toUnits hash row t nss).2.2
              + nss) 1 := by
        rw [hcnt]
        calc (calculateHaystackStatsAndMetric N toUnits hash row t nss).2.1
            ≤ nss + (gramHashes N toUnits hash row).length := hnum
          _ = (gramHashes N toUnits hash row).length + nss := Nat.add_comm _ _
          _ ≤ max ((gramHashes N toUnits hash row).length + nss) 1 :=
              le_max_left _ _
      exact_mod_cast hle
    · positivity
  · rw [hcnt]
    exact hnum

/-- The scoring pass against an all-zero table (the wrapped-needle regime: the
needle contributed no n-grams, whatever `nss` the wrapped `len` accounting hands
over): the result is `((nss + cnt) mod 2^64) / max((cnt + nss) mod 2^64, 1)`, still
within `[0, 1]`. -/
theorem score_range_zero (N : Nat) (hN1 : 1 ≤ N) (hN9 : N ≤ 9)
    (toUnits : List Nat → List Nat) (hash : List Nat → Nat)
    (hhash : ∀ w, hash w < map_size)
    (hunits : ∀ l, (toUnits l).length ≤ l.length)
    (row : List Nat) (t : Nat → Nat) (nss : Nat)
    (ht0 : ∀ h, t h = 0)
    (hnss : nss < sizeT)
    (hrow : row.length ≤ max_string_size) :
    (0 : ℚ) ≤ ((calculateHaystackStatsAndMetric N toUnits hash row t nss).2.1 : ℚ)
        / ((max (((calculateHaystackStatsAndMetric N toUnits hash row t nss).2.2
            + nss) % sizeT) 1 : Nat) : ℚ)
    ∧ ((calculateHaystackStatsAndMetric N toUnits hash row t nss).2.1 : ℚ)
        / ((max (((calculateHaystackStatsAndMetric N toUnits hash row t nss).2.2
            + nss) % sizeT) 1 : Nat) : ℚ) ≤ 1
    ∧ (calculateHaystackStatsAndMetric N toUnits hash row t nss).2.1
        ≤ nss + (calculateHaystackStatsAndMetric N toUnits hash row t nss).2.2 := by
  have hms : max_string_size = 32768 := rfl
  have hyl : (gramHashes N toUnits hash row).length ≤ 32768 := by
    have := gramHashes_length_le N hN1 hN9 toUnits hash row (hunits row)
    omega
  have hy := gramHashes_mem_lt N toUnits hash hhash row
  have hdist : (calculateHaystackStatsAndMetric N toUnits hash row t nss).2.1
      = (nss + (gramHashes N toUnits hash row).length) % sizeT := by
    rw [calcHay_distance N toUnits hash row t nss hnss]
    rw [decCount_zero_table _ t ht0 hy hyl]
    rw [Nat.mul_zero, Nat.add_zero]
  have hcnt := calcHay_cnt N toUnits hash row t nss
  refine ⟨?_, ?_, ?_⟩
  · apply div_nonneg (by positivity) (by positivity)
  · apply div_le_one_of_le₀
    · have hle : (calculateHaystackStatsAndMetric N toUnits hash row t nss).2.1
          ≤ max (((calculateHaystackStatsAndMetric N toUnits hash row t nss).2.2
              + nss) % sizeT) 1 := by
        rw [hdist, hcnt, Nat.add_comm nss]
        exact le_max_left _ _
      exact_mod_cast hle
    · positivity
  · rw [hdist, hcnt]
    exact Nat.mod_le _ _

theorem vcLoop_range (N : Nat) (hN1 : 1 ≤ N) (hN9 : N ≤ 9)
    (toUnits : List Nat → List Nat) (hash : List Nat → Nat)
    (hhash : ∀ w, hash w < map_size)
    (hunits : ∀ l, (toUnits l).length ≤ l.length)
    (data : List Nat) (nss : Nat) :
    ∀ (offs : List Nat) (prev : Nat) (t : Nat → Nat),
    (∀ h, t h < map_size) →
    ((∑ h ∈ Finset.range map_size, t h ≤ nss ∧ nss + 32768 < sizeT)
      ∨ ((∀ h, t h = 0) ∧ nss < sizeT)) →
    ∀ r ∈ vcLoop N toUnits hash data nss t prev offs, 0 ≤ r ∧ r ≤ 1 := by
  intro offs
  induction offs with
  | nil =>
    intro prev t ht hinv r hr
    simp [vcLoop] at hr
  | cons off offs ih =>
    intro prev t ht hinv r hr
    simp only [vcLoop] at hr
    by_cases hc : subSizeT (subSizeT off prev) 1 ≤ max_string_size
    · rw [if_pos hc] at hr
      rcases List.mem_cons.mp hr with rfl | hmem
      · have hrow : ((data.drop prev).take (subSizeT (subSizeT off prev) 1)).length
            ≤ max_string_size := by
          simp only [List.length_take, List.length_drop]
          omega
        rcases hinv with ⟨hsum, hnss⟩ | ⟨ht0, hnss⟩
        · have hs := score_range N hN1 hN9 toUnits hash hhash hunits
            ((data.drop prev).take (subSizeT (subSizeT off prev) 1)) t nss ht hsum
            hnss hrow
          exact ⟨hs.1, hs.2.1⟩
        · have hs := score_range_zero N hN1 hN9 toUnits hash hhash hunits
            ((data.drop prev).take (subSizeT (subSizeT off prev) 1)) t nss ht0
            hnss hrow
          exact ⟨hs.1, hs.2.1⟩
      · have hrest := calcHay_restores N toUnits hash
          ((data.drop prev).take (subSizeT (subSizeT off prev) 1)) t nss ht
        rw [hrest] at hmem
        exact ih off t ht hinv r hmem
    · rw [if_neg hc] at hr
      rcases List.mem_cons.mp hr with rfl | hmem
      · norm_num
      · exact ih off t ht hinv r hmem

/-- C4 : range.  For every needle (any length representable in `size_t`) and every
haystack input whatsoever, the result of `constant_constant` and every row of
`vector_constant` lies in `[0, 1]`; in particular, on the scoring path the final
`distance` never exceeds `needle_ngram_count + haystack_ngram_count` (and, being the
value of a `Nat`-valued quotient shown `≤` its divisor, never goes below zero). -/
theorem C4_range (N : Nat) (hN1 : 1 ≤ N) (hN9 : N ≤ 9)
    (toUnits : List Nat → List Nat) (hash : List Nat → Nat)
    (hhash : ∀ w, hash w < map_size)
    (hunits : ∀ l, (toUnits l).length ≤ l.length)
    (needle data offsets : List Nat)
    (hneedle : needle.length < 2 ^ 63) :
    (0 ≤ constant_constant N toUnits hash data needle
      ∧ constant_constant N toUnits hash data needle ≤ 1)
    ∧ (∀ r ∈ vector_constant N toUnits hash data offsets needle, 0 ≤ r ∧ r ≤ 1)
    ∧ (data.length ≤ max_string_size →
        (calculateHaystackStatsAndMetric N toUnits hash data
            (calculateNeedleStats N toUnits hash needle (fun _ => 0)).1
            (calculateNeedleStats N toUnits hash needle (fun _ => 0)).2).2.1
          ≤ (calculateNeedleStats N toUnits hash needle (fun _ => 0)).2
            + (calculateHaystackStatsAndMetric N toUnits hash data
                (calculateNeedleStats N toUnits hash needle (fun _ => 0)).1
                (calculateNeedleStats N toUnits hash needle (fun _ => 0)).2).2.2) := by
  have ht := needleStats_fst_lt N toUnits hash needle
  have hrep : needle.length < sizeT := by
    rw [show sizeT = 18446744073709551616 from rfl]
    have h63 : (2 : Nat) ^ 63 = 9223372036854775808 := by norm_num
    omega
  have hsum := needleStats_sum_le N toUnits hash hhash hN1 hN9 needle
    (hunits needle) hrep
  have hinv : (∑ h ∈ Finset.range map_size,
        (calculateNeedleStats N toUnits hash needle (fun _ => 0)).1 h
        ≤ (calculateNeedleStats N toUnits hash needle (fun _ => 0)).2
      ∧ (calculateNeedleStats N toUnits hash needle (fun _ => 0)).2
        + 32768 < sizeT)
    ∨ ((∀ h, (calculateNeedleStats N toUnits hash needle (fun _ => 0)).1 h = 0)
      ∧ (calculateNeedleStats N toUnits hash needle (fun _ => 0)).2 < sizeT) := by
    by_cases hex : NeedleCountExact N toUnits needle
    · left
      refine ⟨hsum, ?_⟩
      rw [needleStats_snd_exact N hN1 hN9 toUnits hash needle (hunits needle)
        hrep hex]
      have hgl := gramHashes_length_le N hN1 hN9 toUnits hash needle (hunits needle)
      rw [show sizeT = 18446744073709551616 from rfl]
      have h63 : (2 : Nat) ^ 63 = 9223372036854775808 := by norm_num
      omega
    · right
      refine ⟨?_, needleStats_snd_lt N toUnits hash needle (fun _ => 0)⟩
      intro h
      rw [needleStats_fst N hN1 hN9 toUnits hash needle (hunits needle)]
      rw [gramHashes_nil_of_short N hN1 hN9 toUnits hash needle (by
        unfold NeedleCountExact at hex
        push_neg at hex
        omega)]
      simp
  refine ⟨?_, ?_, ?_⟩
  · by_cases hd : data.length ≤ max_string_size
    · simp only [constant_constant]
      rw [if_pos hd]
      rcases hinv with ⟨hsum2, hnss⟩ | ⟨ht0, hnss⟩
      · have hs := score_range N hN1 hN9 toUnits hash hhash hunits data _ _ ht
          hsum2 hnss hd
        exact ⟨hs.1, hs.2.1⟩
      · have hs := score_range_zero N hN1 hN9 toUnits hash hhash hunits data _ _
          ht0 hnss hd
        exact ⟨hs.1, hs.2.1⟩
    · simp only [constant_constant]
      rw [if_neg hd]
      norm_num
  · simp only [vector_constant]
    exact vcLoop_range N hN1 hN9 toUnits hash hhash hunits data _ offsets 0 _
      ht hinv
  · intro hd
    rcases hinv with ⟨hsum2, hnss⟩ | ⟨ht0, hnss⟩
    · exact (score_range N hN1 hN9 toUnits hash hhash hunits data _ _ ht hsum2
        hnss hd).2.2
    · exact (score_range_zero N hN1 hN9 toUnits hash hhash hunits data _ _ ht0
        hnss hd).2.2

theorem C4_range_witness :
    0 ≤ constant_constant 4 (asciiCodePoints false) ASCIIHash [97, 98] [99]
      ∧ constant_constant 4 (asciiCodePoints false) ASCIIHash [97, 98] [99] ≤ 1 :=
  (C4_range 4 (by norm_num) (by norm_num) (asciiCodePoints false) ASCIIHash
    ASCIIHash_lt (asciiCodePoints_le false) [99] [97, 98] [] (by norm_num)).1

theorem needleStats_ci (N : Nat) (hash : List Nat → Nat) (A : List Nat)
    (t : Nat → Nat) :
    calculateNeedleStats N (asciiCodePoints true) hash A t
      = calculateNeedleStats N (asciiCodePoints false) hash (A.map tolowerByte) t := by
  unfold calculateNeedleStats
  rw [List.length_map]
  rfl

/-- C7 : case-insensitive ASCII equivalence.  On ASCII inputs the case-insensitive
ASCII instantiation returns exactly the result of the case-sensitive ASCII
instantiation applied to the bytewise-lowercased strings (the reader lowers each byte
exactly once before hashing). -/
theorem C7_case_insensitive (hash : List Nat → Nat) (A B : List Nat)
    (_hA : ∀ b ∈ A, b < 128) (_hB : ∀ b ∈ B, b < 128)
    (_hBsize : B.length ≤ max_string_size) :
    constant_constant 4 (asciiCodePoints true) hash B A
      = constant_constant 4 (asciiCodePoints false) hash (B.map tolowerByte)
          (A.map tolowerByte) := by
  simp only [constant_constant]
  rw [needleStats_ci 4 hash A (fun _ => 0), List.length_map]
  rfl

theorem C7_case_insensitive_witness :
    constant_constant 4 (asciiCodePoints true) ASCIIHash [67, 68, 69, 70] [97, 66]
      = constant_constant 4 (asciiCodePoints false) ASCIIHash
          ([67, 68, 69, 70].map tolowerByte) ([97, 66].map tolowerByte) :=
  C7_case_insensitive ASCIIHash [97, 66] [67, 68, 69, 70]
    (by intro b hb; simp at hb; rcases hb with rfl | rfl <;> norm_num)
    (by intro b hb; simp at hb; rcases hb with rfl | rfl | rfl | rfl <;> norm_num)
    (by norm_num [max_string_size])

end Ngram
